import Mathlib

/-!
# Verification of the apipost-mcp field-list synthesis engine and hierarchy resolver

This file gives a shallow embedding, in Lean 4, of the core pure functions of the
`apipost-mcp` repository (`src/index.ts` and its compiled snapshot):

* `convertParams` — the parameter projector,
* `expandFieldListWithParents` — parent expansion of a flat field list,
* `buildDescMap` / `stringifyWithComments` — description index and annotated renderer,
* `buildJsonFromFieldList` — the document synthesizer,
* `isApiPostResponseExample` / `normalizeResponses` — the response-set normalizer,
* `buildPathMap` — the hierarchy resolver (root-to-node path map with cycle guard).

JavaScript values are modelled as follows: a missing (`undefined`) string-valued
property is modelled as `""` when the source only ever tests it for truthiness
(`""` and `undefined` are both falsy and flow identically through every `||` / `!x`
test in the source); a property whose presence is distinguished from its value
(tests with `?? ` or `!== undefined`) is modelled as an `Option`.  JS `Map` and
`Set` are modelled as association lists / lists with the same observable
behaviour (`set` overwrites, `get` returns the last written value).  JSON numbers
are modelled as `Int`: every numeric literal the analysed code paths manipulate is
an integer and no arithmetic is performed on them.  String primitives that do not
reduce in the Lean kernel (`String.splitOn`, `String.endsWith`, `String.dropRight`)
are re-implemented on the character lists underlying `String`, with the same
behaviour on every input.

The recursive path resolver `buildPath` of `buildPathMap` is not structurally
recursive; it is embedded with an explicit fuel argument (`fuel = allItems.length`
at every top-level call).  A fuel-stability theorem below shows the fuel can never
be exhausted from a top-level call, so the embedding computes exactly what the
JavaScript recursion computes.

All declarations live in the `Apipost` namespace (`Field` would otherwise collide
with Mathlib's algebraic `Field`); the structure field `example'` models the
source's `example` property (`example` is a Lean keyword).
-/

namespace Apipost

/-- JSON-like runtime values.  `arr` carries, besides its elements, the extra
string-keyed properties a JS array can hold (the source can reach a state where a
plain property is read from or written to an array value); `JSON.stringify` and
the annotated renderer ignore those, as in JS. -/
inductive JSValue where
  | str (s : String)
  | num (n : Int)
  | bool (b : Bool)
  | null
  | arr (elems : List JSValue) (props : List (String × JSValue))
  | obj (entries : List (String × JSValue))

namespace JSValue

/-- `typeof v === 'object' && v !== null` in JS: objects and arrays qualify,
`null` (and our modelling of `undefined`) does not. -/
def isObjectLike : JSValue → Bool
  | .arr _ _ => true
  | .obj _ => true
  | _ => false

/-- `Array.isArray v`. -/
def isArrayVal : JSValue → Bool
  | .arr _ _ => true
  | _ => false

end JSValue

/-- Property read on an object-like value (`cur[key]`); `none` models a missing
property (`undefined`).  Reading a property off an array reads its extra
string-keyed properties, as in JS; reading off a primitive yields `undefined`. -/
def getProp (v : JSValue) (key : String) : Option JSValue :=
  match v with
  | .obj entries => (entries.find? (fun e => decide (e.1 = key))).map (·.2)
  | .arr _ props => (props.find? (fun e => decide (e.1 = key))).map (·.2)
  | _ => none

/-- JS object-property assignment on an association list: overwrite in place if
the key exists (keeping insertion order), else append. -/
def setEntry (entries : List (String × JSValue)) (key : String) (val : JSValue) :
    List (String × JSValue) :=
  match entries with
  | [] => [(key, val)]
  | e :: rest =>
    if e.1 = key then (key, val) :: rest
    else e :: setEntry rest key val

/-- Property write `cur[key] = val`.  Writing a property on a primitive is
unreachable on the analysed code paths (the source only writes into values it has
just ensured are object-typed); it is modelled as the identity. -/
def setProp (v : JSValue) (key : String) (val : JSValue) : JSValue :=
  match v with
  | .obj entries => .obj (setEntry entries key val)
  | .arr elems props => .arr elems (setEntry props key val)
  | other => other

/-- `JSON.stringify`-style string escaping (quote, backslash, the usual control
characters, `\u00XX` for the remaining control characters). -/
def escapeJsonChar (c : Char) : String :=
  if c = '"' then "\\\""
  else if c = '\\' then "\\\\"
  else if c = '\n' then "\\n"
  else if c = '\r' then "\\r"
  else if c = '\t' then "\\t"
  else if c.toNat < 32 then
    let hexDigit (n : Nat) : Char := if n < 10 then Char.ofNat (48 + n) else Char.ofNat (87 + n)
    String.mk ['\\', 'u', '0', '0', hexDigit (c.toNat / 16), hexDigit (c.toNat % 16)]
  else String.mk [c]

def escapeJsonString (s : String) : String :=
  String.join (s.data.map escapeJsonChar)

/-- Rendering of a primitive JSON value, as `JSON.stringify` renders it. -/
def jsonPrim : JSValue → String
  | .str s => "\"" ++ escapeJsonString s ++ "\""
  | .num n => toString n
  | .bool true => "true"
  | .bool false => "false"
  | _ => "null"

/-- `JSON.stringify(v)` (compact form, no spacing). -/
def jsonStringifyCompact : JSValue → String
  | .arr elems _ => "[" ++ String.intercalate "," (jsonCompactList elems) ++ "]"
  | .obj entries => "\x7b" ++ String.intercalate "," (jsonCompactEntries entries) ++ "\x7d"
  | v => jsonPrim v
where
  jsonCompactList : List JSValue → List String
    | [] => []
    | v :: rest => jsonStringifyCompact v :: jsonCompactList rest
  jsonCompactEntries : List (String × JSValue) → List String
    | [] => []
    | (k, v) :: rest =>
      ("\"" ++ escapeJsonString k ++ "\":" ++ jsonStringifyCompact v) :: jsonCompactEntries rest

/-- `' '.repeat n`. -/
def spaces (n : Nat) : String := String.mk (List.replicate n ' ')

/-- `JSON.stringify(v, null, indent)`: pretty-printed JSON. Empty objects and
arrays render as `{}` / `[]`, as `JSON.stringify` does. -/
def jsonStringifyPretty (v : JSValue) (indent : Nat) (level : Nat) : String :=
  match v with
  | .arr [] _ => "[]"
  | .arr elems _ =>
    "[\n" ++ String.intercalate ",\n" (prettyList elems indent (level + 1)) ++ "\n" ++
      spaces (level * indent) ++ "]"
  | .obj [] => "\x7b\x7d"
  | .obj entries =>
    "\x7b\n" ++ String.intercalate ",\n" (prettyEntries entries indent (level + 1)) ++ "\n" ++
      spaces (level * indent) ++ "\x7d"
  | p => jsonPrim p
where
  prettyList : List JSValue → Nat → Nat → List String
    | [], _, _ => []
    | v :: rest, indent, lvl =>
      (spaces (lvl * indent) ++ jsonStringifyPretty v indent lvl) :: prettyList rest indent lvl
  prettyEntries : List (String × JSValue) → Nat → Nat → List String
    | [], _, _ => []
    | (k, v) :: rest, indent, lvl =>
      (spaces (lvl * indent) ++ "\"" ++ escapeJsonString k ++ "\": " ++
        jsonStringifyPretty v indent lvl) :: prettyEntries rest indent lvl

/-! ## Field descriptors and the parameter projector (`convertParams`) -/

/-- One entry of a field list, as the source's duck-typed field records.
String-valued properties tested only for truthiness (`key`, `type`,
`field_type`, `desc`, `description`) use `""` for "absent"; properties
read with `??` (`is_checked`, `not_null`, `example`, `value`) or tested with
`||` against object values (`schema`) are `Option`s.  `example'` models the
source's `example` property (`example` is a Lean keyword). -/
structure Field where
  key : String
  type : String
  field_type : String
  required : Bool
  desc : String
  description : String
  example' : Option JSValue
  value : Option JSValue
  is_checked : Option Int
  not_null : Option Int
  schema : Option JSValue
  autoParent : Bool

/-- A convenient all-absent field record (every property falsy / undefined). -/
def Field.empty : Field :=
  { key := "", type := "", field_type := "", required := false, desc := "",
    description := "", example' := none, value := none, is_checked := none,
    not_null := none, schema := none, autoParent := false }

/-- One descriptor produced by `convertParams`. -/
structure ParamDesc where
  param_id : String
  description : String
  field_type : String
  is_checked : Int
  key : String
  not_null : Int
  value : JSValue
  schema : JSValue

/-- `generateId()` draws on the clock and a random number; it is modelled as an
abstract supply of ids indexed by how many ids were generated before in the
same `convertParams` call.  No claim concerns the produced id values. -/
def generateId (n : Nat) : String := "id" ++ toString n

/-- The body of `convertParams`'s `map` callback for the parameter at index `i`
(the index only feeds the abstract `generateId` supply). -/
def convertOneParam (i : Nat) (param : Field) : ParamDesc :=
  { param_id := generateId i
    description := if param.desc ≠ "" then param.desc
      else if param.description ≠ "" then param.description else ""
    field_type := if param.type ≠ "" then param.type
      else if param.field_type ≠ "" then param.field_type else "string"
    is_checked := if param.autoParent then 0
      else if param.required then 1 else param.is_checked.getD 0
    key := param.key
    not_null := if param.autoParent then 0
      else if param.required then 1 else param.not_null.getD 0
    value := if param.autoParent then .str ""
      else param.example'.getD (param.value.getD (.str ""))
    schema := param.schema.getD
      (.obj [("type", .str (if param.type ≠ "" then param.type else "string"))]) }

/-- `convertParams(paramsList)`.  The guard `!paramsList || !Array.isArray(paramsList)`
is subsumed by the `List` input type. -/
def convertParams (paramsList : List Field) : List ParamDesc :=
  paramsList.enum.map (fun p => convertOneParam p.1 p.2)

/-! ## Path model and parent expansion (`expandFieldListWithParents`) -/

/-- Split a character list on a separator character; `splitChars c s.data`
matches JS `s.split(c)` for a one-character separator (the source only ever
splits on `'.'`). -/
def splitChars (sepc : Char) : List Char → List (List Char)
  | [] => [[]]
  | c :: rest =>
    let r := splitChars sepc rest
    if c = sepc then [] :: r
    else match r with
      | h :: t => (c :: h) :: t
      | [] => [[c]]

/-- `key.split('.')`. -/
def segsOf (key : String) : List String :=
  (splitChars '.' key.data).map String.mk

/-- `seg.endsWith('[]')`. -/
def endsWithBrackets (s : String) : Bool :=
  match s.data.reverse with
  | ']' :: '[' :: _ => true
  | _ => false

/-- `seg.slice(0, -2)`: drop the final two characters (the `[]` suffix). -/
def dropBrackets (s : String) : String :=
  String.mk (s.data.dropLast.dropLast)

/-- The cleaned form of one segment: `isArray ? seg.slice(0,-2) : seg`. -/
def cleanSeg (s : String) : String :=
  if endsWithBrackets s then dropBrackets s else s

/-- `currentPath = currentPath ? currentPath + '.' + seg : seg` — note the JS
truthiness test: an empty accumulated path is restarted, not dotted. -/
def joinPath (acc seg : String) : String :=
  if acc = "" then seg else acc ++ "." ++ seg

/-- The cleaned ancestor path of a key after its first `j` segments — exactly
the `currentPath` value `ensureParent` has accumulated after processing `j`
segments. -/
def cleanedAt (key : String) (j : Nat) : String :=
  ((segsOf key).take j).foldl (fun a s => joinPath a (cleanSeg s)) ""

/-- The full cleaned path of a key (`currentPath` after the whole walk). -/
def cleanedFull (key : String) : String :=
  cleanedAt key (segsOf key).length

/-- The auto-parent record `ensureParent` pushes for a missing ancestor. -/
def mkAuto (cur : String) (isArr : Bool) : Field :=
  { Field.empty with
    key := cur
    type := (if isArr then "array" else "object")
    required := false
    desc := ""
    autoParent := true }

/-- State of the expansion loop: the `seenKeys` set and the `result` list. -/
structure ExpSt where
  seen : List String
  result : List Field

/-- The `segments.forEach` loop of `ensureParent`, processing the remaining
segments with accumulated `currentPath = cur`.  `rest.isEmpty` decides
`index == segments.length - 1` (the last segment gets no auto-parent); a `return`
in the JS callback skips to the next segment. -/
def ensureParentGo (userKeys : List String) : List String → String → ExpSt → ExpSt
  | [], _, st => st
  | seg :: rest, cur, st =>
    let isArr := endsWithBrackets seg
    let c := if isArr then dropBrackets seg else seg
    let cur' := joinPath cur c
    if cur' ∈ userKeys then ensureParentGo userKeys rest cur' st
    else if cur' ∈ st.seen then ensureParentGo userKeys rest cur' st
    else
      let st' : ExpSt :=
        if rest.isEmpty then { st with seen := cur' :: st.seen }
        else { seen := cur' :: st.seen, result := st.result ++ [mkAuto cur' isArr] }
      ensureParentGo userKeys rest cur' st'

/-- `ensureParent(keyPath)`. -/
def ensureParent (userKeys : List String) (key : String) (st : ExpSt) : ExpSt :=
  ensureParentGo userKeys (segsOf key) "" st

/-- One iteration of the `fields.forEach` loop of `expandFieldListWithParents`:
skip falsy keys, ensure parents, then push the original field (adding its key
to `seenKeys` when new). -/
def expandStep (userKeys : List String) (st : ExpSt) (field : Field) : ExpSt :=
  if field.key = "" then st
  else
    let st1 := ensureParent userKeys field.key st
    if field.key ∈ st1.seen then { st1 with result := st1.result ++ [field] }
    else { seen := field.key :: st1.seen, result := st1.result ++ [field] }

/-- `expandFieldListWithParents(fields)`. -/
def expandFieldListWithParents (fields : List Field) : List Field :=
  let userKeys := (fields.filter (fun f => f.key ≠ "")).map (·.key)
  (fields.foldl (expandStep userKeys) ⟨[], []⟩).result


/-! ## Description index and annotated renderer (`buildDescMap`, `stringifyWithComments`) -/

/-- `key.replace(/\[\]/g, '[0]')`: left-to-right, non-overlapping global
replacement of `[]` by `[0]`. -/
def replaceBrackets : List Char → List Char
  | '[' :: ']' :: rest => '[' :: '0' :: ']' :: replaceBrackets rest
  | c :: rest => c :: replaceBrackets rest
  | [] => []

/-- `Map.set` on a string-to-string association list: overwrite in place or append. -/
def descSet (m : List (String × String)) (k v : String) : List (String × String) :=
  match m with
  | [] => [(k, v)]
  | e :: rest => if e.1 = k then (k, v) :: rest else e :: descSet rest k v

/-- `Map.get`. -/
def descGet (m : List (String × String)) (k : String) : Option String :=
  (m.find? (fun e => decide (e.1 = k))).map (·.2)

/-- `buildDescMap(fields)`. -/
def buildDescMap (fields : List Field) : List (String × String) :=
  fields.foldl
    (fun m field =>
      if field.key = "" then m
      else
        let path := String.mk (replaceBrackets field.key.data)
        if field.desc ≠ "" ∨ field.description ≠ "" then
          descSet m path (if field.desc ≠ "" then field.desc else field.description)
        else m)
    []

mutual

/-- `stringifyWithComments(value, descMap, path, indent, level)`: JSON-like
pretty-printing with trailing `// description` comments on paths present in the
description map.  Note the source renders object keys without escaping
(template-literal interpolation), and only the empty-array case has a compact
`[]` short-circuit. -/
def stringifyWithComments : JSValue → List (String × String) → String → Nat → Nat → String
  | .arr [] _, _, _, _, _ => "[]"
  | .arr elems _, dm, path, indent, level =>
    "[\n" ++ String.intercalate ",\n" (swcItems elems dm path indent level 0) ++
      "\n" ++ spaces (level * indent) ++ "]"
  | .obj entries, dm, path, indent, level =>
    "\x7b\n" ++ String.intercalate ",\n" (swcEntries entries dm path indent level) ++
      "\n" ++ spaces (level * indent) ++ "\x7d"
  | v, _, _, _, _ => jsonPrim v

/-- The `value.map((item, index) => ...)` callback of the array branch. -/
def swcItems : List JSValue → List (String × String) → String → Nat → Nat → Nat → List String
  | [], _, _, _, _, _ => []
  | item :: rest, dm, path, indent, level, i =>
    let childPath := path ++ "[" ++ toString i ++ "]"
    let childStr := stringifyWithComments item dm childPath indent (level + 1)
    let d := (descGet dm childPath).getD ""
    (spaces ((level + 1) * indent) ++ childStr ++ (if d ≠ "" then " // " ++ d else "")) ::
      swcItems rest dm path indent level (i + 1)

/-- The `Object.keys(value).map(key => ...)` callback of the object branch. -/
def swcEntries : List (String × JSValue) → List (String × String) → String → Nat → Nat → List String
  | [], _, _, _, _ => []
  | (key, v) :: rest, dm, path, indent, level =>
    let childPath := if path = "" then key else path ++ "." ++ key
    let childStr := stringifyWithComments v dm childPath indent (level + 1)
    let d := (descGet dm childPath).getD ""
    (spaces ((level + 1) * indent) ++ "\"" ++ key ++ "\": " ++ childStr ++
      (if d ≠ "" then " // " ++ d else "")) :: swcEntries rest dm path indent level

end

/-! ## Document synthesizer (`buildJsonFromFieldList`) -/

/-- `(type || '').toLowerCase()`. -/
def toLowerString (s : String) : String := String.mk (s.data.map Char.toLower)

/-- `defaultValueByType(type)`. -/
def defaultValueByType (type : String) : JSValue :=
  let t := toLowerString type
  if t = "integer" ∨ t = "number" then .num 0
  else if t = "boolean" then .bool false
  else if t = "array" then .arr [] []
  else if t = "object" then .obj []
  else if t = "null" then .null
  else .str ""

/-- One parsed path segment: `{ key, isArray }`. -/
structure Seg where
  key : String
  isArray : Bool

/-- `path.split('.').map(seg => seg.endsWith('[]') ? {key: seg.slice(0,-2), isArray: true} : {key: seg, isArray: false})`. -/
def parseSegs (path : String) : List Seg :=
  (segsOf path).map fun seg =>
    if endsWithBrackets seg then ⟨dropBrackets seg, true⟩ else ⟨seg, false⟩

/-- `field.example ?? field.value ?? defaultValueByType(field.type)`. -/
def fieldVal (field : Field) : JSValue :=
  field.example'.getD (field.value.getD (defaultValueByType field.type))

/-- First element of an array value (only read after the `push({})` step has
ensured one exists). -/
def elemZero : JSValue → JSValue
  | .arr (e :: _) _ => e
  | _ => .null

/-- `a[0] = x` on an array value. -/
def setElemZero (v : JSValue) (x : JSValue) : JSValue :=
  match v with
  | .arr [] props => .arr [x] props
  | .arr (_ :: rest) props => .arr (x :: rest) props
  | other => other

/-- The `segments.forEach` walk of `buildJsonFromFieldList`, functionally: the
JS code mutates `current` (an alias into the tree) in place and descends; here
the updated subtree is written back into the parent after the recursive call,
which is observationally identical since the alias chain is the only sharing. -/
def writeSegs (field : Field) : List Seg → JSValue → JSValue
  | [], cur => cur
  | seg :: rest, cur =>
    if seg.isArray then
      let a1 : JSValue :=
        match getProp cur seg.key with
        | some v => if v.isArrayVal then v else .arr [] []
        | none => .arr [] []
      let a2 : JSValue :=
        match a1 with
        | .arr [] props => .arr [.obj []] props
        | v => v
      if rest.isEmpty then
        setProp cur seg.key (setElemZero a2 (fieldVal field))
      else
        let e0 := elemZero a2
        let e1 := if e0.isObjectLike then e0 else .obj []
        setProp cur seg.key (setElemZero a2 (writeSegs field rest e1))
    else
      if rest.isEmpty then
        setProp cur seg.key (fieldVal field)
      else
        let c1 : JSValue :=
          match getProp cur seg.key with
          | some v => if v.isObjectLike then v else .obj []
          | none => .obj []
        setProp cur seg.key (writeSegs field rest c1)

/-- `buildJsonFromFieldList(fields)`. -/
def buildJsonFromFieldList (fields : List Field) : JSValue :=
  fields.foldl
    (fun root field =>
      if field.autoParent then root
      else if field.key = "" then root
      else writeSegs field (parseSegs field.key) root)
    (.obj [])

/-! ## Response-set normalizer (`normalizeResponses`) -/

/-- One item of the caller-provided `responses` input.  The three canonical-only
marker properties (`example_id`, `expect`, `raw`) are tested with
`!== undefined`, hence `Option`s; `fields`, `status`, `schema` are read with
`??` / `Array.isArray` fallbacks; `name` is tested for truthiness. -/
structure RespIn where
  example_id : Option JSValue
  expect : Option JSValue
  raw : Option JSValue
  fields : Option (List Field)
  status : Option Int
  name : String
  schema : Option JSValue

/-- An all-absent response item. -/
def RespIn.empty : RespIn :=
  { example_id := none, expect := none, raw := none, fields := none,
    status := none, name := "", schema := none }

/-- `isApiPostResponseExample(resp)` (items of a JS array are non-null here, so
the `!!resp` guard is subsumed by the structure type). -/
def isApiPostResponseExample (resp : RespIn) : Bool :=
  resp.example_id.isSome || resp.expect.isSome || resp.raw.isSome

/-- The `expect` block of a canonical response example. -/
structure ExpectBlock where
  code : String
  content_type : String
  is_default : Int
  mock : String
  name : String
  schema : JSValue
  verify_type : String
  sleep : Int

/-- One canonical (ApiPost-shaped) response example, as built by the simplified
conversion and the default branch. -/
structure CanonicalItem where
  example_id : String
  raw : String
  raw_parameter : List ParamDesc
  headers : List JSValue
  expect : ExpectBlock

/-- The error thrown for a response item with a missing or empty field list. -/
def fieldsMissingMsg : String := "responses.fields 必填且不能为空，data 字段已禁用，请提供字段列表"

/-- The body of the `responses.map((resp, index) => ...)` conversion for one
simplified response item.  `inlineComments` threads the module-level
`APIPOST_INLINE_COMMENTS` configuration flag.  The JS `throw` inside the
`raw` IIFE aborts the whole `normalizeResponses` call; it is modelled with
`Except`. -/
def convertOneResp (inlineComments : Bool) (index : Nat) (resp : RespIn) :
    Except String CanonicalItem :=
  let fields := resp.fields.getD []
  if fields.length = 0 then .error fieldsMissingMsg
  else
    let expandedFields := expandFieldListWithParents fields
    let descMap := buildDescMap expandedFields
    let rawData := buildJsonFromFieldList expandedFields
    .ok {
      example_id := toString (index + 1)
      raw := if inlineComments ∧ expandedFields.length > 0 then
          stringifyWithComments rawData descMap "" 4 0
        else jsonStringifyPretty rawData 4 0
      raw_parameter := convertParams (expandFieldListWithParents (resp.fields.getD []))
      headers := []
      expect := {
        code := toString (resp.status.getD 200)
        content_type := "application/json"
        is_default := if index = 0 then 1 else -1
        mock := jsonStringifyCompact
          (buildJsonFromFieldList (expandFieldListWithParents (resp.fields.getD [])))
        name := if resp.name ≠ "" then resp.name
          else if index = 0 then "成功响应" else "响应" ++ toString (index + 1)
        schema := resp.schema.getD (.obj [("type", .str "object"), ("properties", .obj [])])
        verify_type := "schema"
        sleep := 0 } }

/-- The whole `responses.map(...)` of the simplified-conversion branch. -/
def convertSimplified (inlineComments : Bool) (responses : List RespIn) :
    Except String (List CanonicalItem) :=
  responses.enum.mapM (fun p => convertOneResp inlineComments p.1 p.2)

/-- The `options` argument of `normalizeResponses`, with the source's defaults
in `defaultNormOptions`. -/
structure NormOptions where
  fallbackExamples : List CanonicalItem
  useDefaultWhenMissing : Bool
  keepEmpty : Bool
  isCheckResult : Int

def defaultNormOptions : NormOptions :=
  { fallbackExamples := [], useDefaultWhenMissing := true, keepEmpty := true,
    isCheckResult := 1 }

/-- The `example` payload of a normalizer result: either the input list passed
through unchanged, or a list of canonical items (conversion output, fallback,
default, or the empty list). -/
inductive ExampleSet where
  | passthrough (items : List RespIn)
  | canonical (items : List CanonicalItem)

/-- The value returned by `normalizeResponses` (`example'` models the source's
`example` property; `example` is a Lean keyword). -/
structure NormResult where
  example' : ExampleSet
  is_check_result : Int

/-- `generateResponseData(undefined)`: the fixed default payload
`{code: 0, message: '操作成功', data: {}}`. -/
def defaultResponseData : JSValue :=
  .obj [("code", .num 0), ("message", .str "操作成功"), ("data", .obj [])]

/-- The single default "success" response synthesized when no input and no
fallback is available. -/
def defaultCanonicalItem : CanonicalItem :=
  { example_id := "1"
    raw := jsonStringifyPretty defaultResponseData 4 0
    raw_parameter := []
    headers := []
    expect := {
      code := "200"
      content_type := "application/json"
      is_default := 1
      mock := jsonStringifyCompact defaultResponseData
      name := "成功响应"
      schema := .obj [("type", .str "object"), ("properties", .obj [])]
      verify_type := "schema"
      sleep := 0 } }

/-- `normalizeResponses(responses, options)`.  `none` models an absent
`responses` argument (`hasInput = false`). -/
def normalizeResponses (inlineComments : Bool) (responses : Option (List RespIn))
    (options : NormOptions) : Except String NormResult :=
  match responses with
  | some rs =>
    if rs.length = 0 then
      .ok { example' := .canonical (if options.keepEmpty then [] else options.fallbackExamples)
            is_check_result := options.isCheckResult }
    else if rs.any isApiPostResponseExample then
      .ok { example' := .passthrough rs, is_check_result := options.isCheckResult }
    else
      (convertSimplified inlineComments rs).map fun conv =>
        { example' := .canonical conv, is_check_result := options.isCheckResult }
  | none =>
    if options.fallbackExamples.length > 0 then
      .ok { example' := .canonical options.fallbackExamples
            is_check_result := options.isCheckResult }
    else if ¬ options.useDefaultWhenMissing then
      .ok { example' := .canonical [], is_check_result := options.isCheckResult }
    else
      .ok { example' := .canonical [defaultCanonicalItem]
            is_check_result := options.isCheckResult }

/-! ## Hierarchy resolver (`buildPathMap`) -/

/-- One node of the parent-linked collection (only the properties `buildPathMap`
reads).  An absent `parent_id` is modelled as `""` (falsy, like `undefined`,
in the `item.parent_id && item.parent_id !== '0'` test). -/
structure Item where
  target_id : String
  parent_id : String
  name : String
deriving DecidableEq

/-- The `itemMap` lookup: `Map.set` in a `forEach` keeps the last item with a
given `target_id`, so lookup finds the last occurrence. -/
def lookupItem (items : List Item) (id : String) : Option Item :=
  items.reverse.find? (fun it => decide (it.target_id = id))

/-- The memoization map `pathMap`, as an association list (entries are only ever
inserted, each key at most once per run). -/
abbrev PathMap := List (String × List String)

def pmFind (m : PathMap) (k : String) : Option (List String) :=
  (m.find? (fun e => decide (e.1 = k))).map (·.2)

/-- `buildPath(targetId, visited)` with the memoization map threaded explicitly.
The JS recursion is not structural; `fuel` bounds its depth and is set to
`allItems.length` at every top-level call, which the fuel-stability theorem
below shows can never be exhausted (the `fuel = 0` branch is unreachable). -/
def buildPath (items : List Item) : Nat → PathMap → String → List String → List String × PathMap
  | fuel, st, targetId, visited =>
    match pmFind st targetId with
    | some p => (p, st)
    | none =>
      if targetId ∈ visited then ([], st)
      else
        match lookupItem items targetId with
        | none => ([], st)
        | some item =>
          match fuel with
          | 0 => ([], st)
          | fuel' + 1 =>
            let pr := if item.parent_id ≠ "" ∧ item.parent_id ≠ "0" then
                buildPath items fuel' st item.parent_id (targetId :: visited)
              else ([], st)
            let path := pr.1 ++ [item.name]
            (path, (targetId, path) :: pr.2)

/-- `buildPathMap(allItems)`. -/
def buildPathMap (items : List Item) : PathMap :=
  items.foldl (fun st item => (buildPath items items.length st item.target_id []).2) []


/-! ## Claim C6 — array collapsing in synthesis -/

/-- A user field with only a key and an example value (all other properties
absent), as used in the spec's array-collapsing examples. -/
def keyExField (k : String) (v : JSValue) : Field :=
  { Field.empty with key := k, example' := some v }

/-- C6: synthesis collapses array paths to a single element: expansion followed
by `buildJsonFromFieldList` on `[{key:"items[].id", example:"x1"}]` yields
`{ "items": [ { "id": "x1" } ] }`, and for every pair of example values on
`items[].id` and `items[].name`, both land inside the one and only element of
the `items` array — no second array element is created. -/
theorem C6_array_collapsing :
    buildJsonFromFieldList (expandFieldListWithParents [keyExField "items[].id" (.str "x1")]) =
      .obj [("items", .arr [.obj [("id", .str "x1")]] [])]
    ∧ ∀ v1 v2 : JSValue,
      buildJsonFromFieldList (expandFieldListWithParents
          [keyExField "items[].id" v1, keyExField "items[].name" v2]) =
        .obj [("items", .arr [.obj [("id", v1), ("name", v2)]] [])] :=
  ⟨rfl, fun _ _ => rfl⟩

/-! ## Claim C7 — rendering of empty objects and arrays -/

/-- C7 (corrected): the annotated renderer renders an array with no elements as
`[]` (for any extra array properties, description index, path, indent and
level), but an object with no entries is rendered as the three-line block
`"{\n\n" ++ indentation ++ "}"`, not as `"{}"` — the object branch has no
empty short-circuit. -/
theorem C7_empty_render (props : List (String × JSValue)) (dm : List (String × String))
    (path : String) (indent level : Nat) :
    stringifyWithComments (.arr [] props) dm path indent level = "[]"
    ∧ stringifyWithComments (.obj []) dm path indent level =
        "\x7b\n\n" ++ spaces (level * indent) ++ "\x7d" := by
  constructor
  · rfl
  · show "\x7b\n" ++ String.intercalate ",\n" [] ++ "\n" ++ spaces (level * indent) ++ "\x7d" = _
    simp [String.intercalate]

/-- Counterexample to C7 as stated: an object with no entries does not render
as the text `{}`. -/
theorem C7_counterexample :
    stringifyWithComments (.obj []) [] "" 4 0 ≠ "\x7b\x7d" := by decide

/-- Witness for C7: the two equations at a concrete instantiation. -/
theorem C7_witness :
    stringifyWithComments (.arr [] []) [] "p" 4 1 = "[]"
    ∧ stringifyWithComments (.obj []) [] "p" 4 1 = "\x7b\n\n" ++ spaces 4 ++ "\x7d" :=
  C7_empty_render [] [] "p" 4 1

/-! ## Claim C8 — the parameter projector maps fields 1:1 -/

/-- C8: `convertParams` maps each field to exactly one descriptor, preserving
order 1:1 (the output has the input's length and descriptor `i` is
`convertOneParam i` of field `i`); every auto-parent field yields unchecked,
nullable flags (`0`) and the empty-string value, and every user-declared field
derives `is_checked`/`not_null` from `required` (with `is_checked`/`not_null`
input fallbacks) and its value from `example ?? value ?? ''`. -/
theorem C8_convertParams_spec (fields : List Field) :
    (convertParams fields).length = fields.length
    ∧ (∀ i, (convertParams fields).get? i = (fields.get? i).map (convertOneParam i))
    ∧ ∀ p i,
        (p.autoParent = true →
          (convertOneParam i p).is_checked = 0 ∧ (convertOneParam i p).not_null = 0 ∧
          (convertOneParam i p).value = .str "")
        ∧ (p.autoParent = false →
          (convertOneParam i p).is_checked = (if p.required then 1 else p.is_checked.getD 0) ∧
          (convertOneParam i p).not_null = (if p.required then 1 else p.not_null.getD 0) ∧
          (convertOneParam i p).value = p.example'.getD (p.value.getD (.str ""))) := by
  refine ⟨by simp [convertParams], ?_, ?_⟩
  · intro i
    simp only [convertParams, List.get?_eq_getElem?, List.getElem?_map, List.getElem?_enum]
    cases fields[i]? <;> rfl
  · intro p i
    constructor
    · intro h
      simp [convertOneParam, h]
    · intro h
      simp [convertOneParam, h]

/-- Witness for C8: the projection at a concrete auto-parent and a concrete
user field. -/
theorem C8_witness :
    (convertParams [mkAuto "items" true, keyExField "items[].id" (.str "x1")]).length = 2
    ∧ (convertOneParam 0 (mkAuto "items" true)).is_checked = 0
    ∧ (convertOneParam 0 (mkAuto "items" true)).value = .str ""
    ∧ (convertOneParam 1 (keyExField "items[].id" (.str "x1"))).value = .str "x1" := by
  refine ⟨(C8_convertParams_spec _).1, ?_, ?_, ?_⟩
  · exact ((C8_convertParams_spec []).2.2 (mkAuto "items" true) 0).1 rfl |>.1
  · exact ((C8_convertParams_spec []).2.2 (mkAuto "items" true) 0).1 rfl |>.2.2
  · exact ((C8_convertParams_spec []).2.2 (keyExField "items[].id" (.str "x1")) 1).2 rfl |>.2.2


/-! ## Claims C2 and C4 — the response-set normalizer on provided lists -/

/-- A response item carrying only the canonical marker `example_id`. -/
def canonicalMarkerResp : RespIn := { RespIn.empty with example_id := some (.str "1") }

/-- A simplified response item with a non-empty field list and no canonical
markers. -/
def plainFieldsResp : RespIn :=
  { RespIn.empty with fields := some [keyExField "code" (.num 0)] }

/-- `convertOneResp` fails exactly on a missing or empty field list, and
otherwise succeeds. -/
theorem convertOneResp_eq_error (ic : Bool) (i : Nat) (r : RespIn)
    (h : r.fields.getD [] = []) : convertOneResp ic i r = .error fieldsMissingMsg := by
  simp [convertOneResp, h]

theorem convertOneResp_ok (ic : Bool) (i : Nat) (r : RespIn)
    (h : r.fields.getD [] ≠ []) : ∃ item, convertOneResp ic i r = .ok item := by
  simp only [convertOneResp]
  rw [if_neg (by simpa [List.length_eq_zero] using h)]
  exact ⟨_, rfl⟩

/-- If some item of the list has a missing or empty field list, the whole
simplified conversion fails with the fields-missing error. -/
theorem convertSimplified_error_aux (ic : Bool) :
    ∀ (rs : List RespIn) (n : Nat), (∃ r ∈ rs, r.fields.getD [] = []) →
      (rs.enumFrom n).mapM (fun p => convertOneResp ic p.1 p.2) = .error fieldsMissingMsg := by
  intro rs
  induction rs with
  | nil => rintro n ⟨r, hr, -⟩; cases hr
  | cons r rest ih =>
    rintro n ⟨r', hr', hbad⟩
    rw [List.enumFrom_cons, List.mapM_cons]
    by_cases hr : r.fields.getD [] = []
    · rw [convertOneResp_eq_error ic n r hr]
      rfl
    · obtain ⟨item, hitem⟩ := convertOneResp_ok ic n r hr
      rw [hitem]
      have hmem : ∃ x ∈ rest, x.fields.getD [] = [] := by
        rcases List.mem_cons.mp hr' with h | h
        · exact absurd (h ▸ hbad) hr
        · exact ⟨r', h, hbad⟩
      show List.cons item <$>
          (List.enumFrom (n + 1) rest).mapM (fun p => convertOneResp ic p.1 p.2) =
        Except.error fieldsMissingMsg
      rw [ih (n + 1) hmem]
      rfl

theorem convertSimplified_error (ic : Bool) (rs : List RespIn)
    (h : ∃ r ∈ rs, r.fields.getD [] = []) :
    convertSimplified ic rs = .error fieldsMissingMsg :=
  convertSimplified_error_aux ic rs 0 h

/-- C2 (corrected): a provided non-empty response list is passed through
unchanged exactly when *some* item carries a canonical marker (`example_id`,
`expect` or `raw`); only when *no* item is canonical is each item converted
(via expansion, synthesis and projection) by `convertSimplified`. -/
theorem C2_passthrough_iff_some_canonical (ic : Bool) (rs : List RespIn)
    (opts : NormOptions) (h : rs ≠ []) :
    (normalizeResponses ic (some rs) opts =
        .ok { example' := .passthrough rs, is_check_result := opts.isCheckResult }
      ↔ rs.any isApiPostResponseExample = true)
    ∧ (rs.any isApiPostResponseExample = false →
      normalizeResponses ic (some rs) opts =
        (convertSimplified ic rs).map fun conv =>
          { example' := .canonical conv, is_check_result := opts.isCheckResult }) := by
  have hlen : ¬ rs.length = 0 := by simpa [List.length_eq_zero] using h
  constructor
  · constructor
    · intro heq
      by_contra hany
      have hany' : rs.any isApiPostResponseExample = false := by
        simpa using hany
      rw [normalizeResponses, if_neg hlen, hany'] at heq
      simp only [Bool.false_eq_true, if_false] at heq
      cases hconv : convertSimplified ic rs with
      | error e => rw [hconv] at heq; exact Except.noConfusion heq
      | ok l =>
        rw [hconv] at heq
        simp only [Except.map] at heq
        have := Except.ok.inj heq
        have h2 := congrArg NormResult.example' this
        exact ExampleSet.noConfusion h2
    · intro hany
      rw [normalizeResponses, if_neg hlen, hany]
      simp
  · intro hany
    rw [normalizeResponses, if_neg hlen, hany]
    simp

/-- Counterexample to C2 as stated: a two-item list whose first item is
canonical and whose second is not is passed through unchanged, although not
every item matches the canonical shape (the source tests `some`, not `every`). -/
theorem C2_counterexample :
    isApiPostResponseExample plainFieldsResp = false
    ∧ normalizeResponses false (some [canonicalMarkerResp, plainFieldsResp]) defaultNormOptions =
        .ok { example' := .passthrough [canonicalMarkerResp, plainFieldsResp]
              is_check_result := 1 } :=
  ⟨rfl, rfl⟩

/-- Witness for C2: both directions at concrete inputs. -/
theorem C2_witness :
    normalizeResponses false (some [canonicalMarkerResp]) defaultNormOptions =
      .ok { example' := .passthrough [canonicalMarkerResp], is_check_result := 1 }
    ∧ normalizeResponses false (some [plainFieldsResp]) defaultNormOptions =
      (convertSimplified false [plainFieldsResp]).map fun conv =>
        { example' := .canonical conv, is_check_result := 1 } :=
  ⟨(C2_passthrough_iff_some_canonical false [canonicalMarkerResp] defaultNormOptions
      (by simp)).1.mpr rfl,
   (C2_passthrough_iff_some_canonical false [plainFieldsResp] defaultNormOptions
      (by simp)).2 rfl⟩

/-- C4: on a provided non-empty list in which no item is canonical, a single
item with a missing or empty field list makes `normalizeResponses` fail with
the fields-missing error — the condition is surfaced to the caller and the
whole response-set call aborts; the item is not silently skipped. -/
theorem C4_missing_fields_fatal (ic : Bool) (rs : List RespIn) (opts : NormOptions)
    (h : rs ≠ []) (hnc : ∀ r ∈ rs, isApiPostResponseExample r = false)
    (hbad : ∃ r ∈ rs, r.fields = none ∨ r.fields = some []) :
    normalizeResponses ic (some rs) opts = .error fieldsMissingMsg := by
  have hany : rs.any isApiPostResponseExample = false := by
    simp only [List.any_eq_false]
    intro r hr
    simp [hnc r hr]
  have hbad' : ∃ r ∈ rs, r.fields.getD [] = [] := by
    obtain ⟨r, hr, hb⟩ := hbad
    refine ⟨r, hr, ?_⟩
    rcases hb with hb | hb <;> simp [hb]
  have := (C2_passthrough_iff_some_canonical ic rs opts h).2 hany
  rw [this, convertSimplified_error ic rs hbad']
  rfl

/-- Witness for C4: a one-item list whose item has no field list. -/
theorem C4_witness :
    normalizeResponses false (some [RespIn.empty]) defaultNormOptions =
      .error fieldsMissingMsg :=
  C4_missing_fields_fatal false [RespIn.empty] defaultNormOptions (by simp)
    (by intro r hr; simp at hr; simp [hr, isApiPostResponseExample, RespIn.empty])
    ⟨RespIn.empty, by simp, Or.inl rfl⟩


/-! ## Claim C9 — expansion preserves user fields as a subsequence -/

/-- `ensureParentGo` only ever appends auto-parent records to the result. -/
theorem ensureParentGo_result_append (u : List String) :
    ∀ (segs : List String) (cur : String) (st : ExpSt),
      ∃ l, (ensureParentGo u segs cur st).result = st.result ++ l
        ∧ ∀ g ∈ l, ∃ c b, g = mkAuto c b := by
  intro segs
  induction segs with
  | nil => exact fun cur st => ⟨[], by simp [ensureParentGo], by simp⟩
  | cons seg rest ih =>
    intro cur st
    rw [ensureParentGo]
    by_cases h1 : joinPath cur (if endsWithBrackets seg then dropBrackets seg else seg) ∈ u
    · rw [if_pos h1]; exact ih _ _
    · rw [if_neg h1]
      by_cases h2 : joinPath cur (if endsWithBrackets seg then dropBrackets seg else seg) ∈ st.seen
      · rw [if_pos h2]; exact ih _ _
      · rw [if_neg h2]
        by_cases h3 : rest.isEmpty
        · rw [if_pos h3]
          obtain ⟨l, hl, hm⟩ := ih _ _
          exact ⟨l, hl, hm⟩
        · rw [if_neg h3]
          obtain ⟨l, hl, hm⟩ := ih _ _
          refine ⟨mkAuto (joinPath cur (if endsWithBrackets seg then dropBrackets seg else seg))
              (endsWithBrackets seg) :: l, by rw [hl]; simp, ?_⟩
          intro g hg
          rcases List.mem_cons.mp hg with hg | hg
          · exact ⟨_, _, hg⟩
          · exact hm g hg

/-- The shape of one expansion step: a falsy key leaves the state unchanged;
otherwise the result grows by some auto-parents followed by the field itself. -/
theorem expandStep_result (u : List String) (st : ExpSt) (f : Field) :
    (f.key = "" ∧ (expandStep u st f).result = st.result)
    ∨ (f.key ≠ "" ∧ ∃ laux, (expandStep u st f).result = st.result ++ laux ++ [f]
        ∧ ∀ g ∈ laux, ∃ c b, g = mkAuto c b) := by
  by_cases hk : f.key = ""
  · exact Or.inl ⟨hk, by rw [expandStep, if_pos hk]⟩
  · refine Or.inr ⟨hk, ?_⟩
    obtain ⟨laux, hlaux, hm⟩ := ensureParentGo_result_append u (segsOf f.key) "" st
    have hlaux' : (ensureParent u f.key st).result = st.result ++ laux := hlaux
    refine ⟨laux, ?_, hm⟩
    simp only [expandStep, if_neg hk, apply_ite ExpSt.result, ite_self]
    rw [hlaux', List.append_assoc]

/-- Invariant of the expansion fold: the non-empty-key part of the processed
input is a subsequence of the result, and every result entry is an input field
or an auto-parent. -/
theorem expandFold_inv (u : List String) :
    ∀ (l done : List Field) (st : ExpSt),
      List.Sublist (done.filter (fun f => f.key ≠ "")) st.result →
      (∀ g ∈ st.result, g ∈ done ∨ g.autoParent = true) →
      List.Sublist ((done ++ l).filter (fun f => f.key ≠ ""))
          (l.foldl (expandStep u) st).result
        ∧ ∀ g ∈ (l.foldl (expandStep u) st).result, g ∈ done ++ l ∨ g.autoParent = true := by
  intro l
  induction l with
  | nil =>
    intro done st h1 h2
    rw [List.foldl_nil, List.append_nil]
    exact ⟨h1, h2⟩
  | cons f rest ih =>
    intro done st h1 h2
    have hstep1 : List.Sublist ((done ++ [f]).filter (fun g => g.key ≠ ""))
        (expandStep u st f).result := by
      rcases expandStep_result u st f with ⟨hk, hres⟩ | ⟨hk, laux, hres, -⟩
      · rw [hres, List.filter_append]
        have : List.filter (fun g => decide (g.key ≠ "")) [f] = [] := by simp [hk]
        rw [this, List.append_nil]
        exact h1
      · rw [hres, List.filter_append]
        have : List.filter (fun g => decide (g.key ≠ "")) [f] = [f] := by simp [hk]
        rw [this]
        exact List.Sublist.append (h1.trans (List.sublist_append_left _ _))
          (List.Sublist.refl [f])
    have hstep2 : ∀ g ∈ (expandStep u st f).result, g ∈ done ++ [f] ∨ g.autoParent = true := by
      intro g hg
      rcases expandStep_result u st f with ⟨hk, hres⟩ | ⟨hk, laux, hres, hm⟩
      · rw [hres] at hg
        rcases h2 g hg with h | h
        · exact Or.inl (List.mem_append_left _ h)
        · exact Or.inr h
      · rw [hres] at hg
        rcases List.mem_append.mp hg with hg' | hg'
        · rcases List.mem_append.mp hg' with hg'' | hg''
          · rcases h2 g hg'' with h | h
            · exact Or.inl (List.mem_append_left _ h)
            · exact Or.inr h
          · obtain ⟨c, b, rfl⟩ := hm g hg''
            exact Or.inr rfl
        · simp only [List.mem_singleton] at hg'
          exact Or.inl (by simp [hg'])
    have hrec := ih (done ++ [f]) (expandStep u st f) hstep1 hstep2
    rw [List.foldl_cons]
    constructor
    · have := hrec.1
      rwa [List.append_assoc, List.singleton_append] at this
    · intro g hg
      have := hrec.2 g hg
      rwa [List.append_assoc, List.singleton_append] at this

/-- C9: every input field with a non-empty key survives expansion unmodified and
in its original relative order — the filtered input list is a subsequence of the
output — and every output entry is either an input field or an auto-parent
record; expansion never drops, rewrites or reorders a user field. -/
theorem C9_expansion_keeps_user_fields (fields : List Field) :
    List.Sublist (fields.filter (fun f => f.key ≠ "")) (expandFieldListWithParents fields)
    ∧ ∀ g ∈ expandFieldListWithParents fields, g ∈ fields ∨ g.autoParent = true := by
  have := expandFold_inv ((fields.filter (fun f => f.key ≠ "")).map (·.key))
    fields [] ⟨[], []⟩ (by simp) (by simp)
  simpa [expandFieldListWithParents] using this

/-- Witness for C9: the invariant at a concrete one-field list, with the
membership hypothesis of the second conjunct discharged concretely. -/
theorem C9_witness :
    List.Sublist ([keyExField "a.b" (.num 1)].filter (fun f => f.key ≠ ""))
      (expandFieldListWithParents [keyExField "a.b" (.num 1)])
    ∧ (mkAuto "a" false ∈ [keyExField "a.b" (.num 1)] ∨ (mkAuto "a" false).autoParent = true) :=
  ⟨(C9_expansion_keeps_user_fields [keyExField "a.b" (.num 1)]).1,
   (C9_expansion_keeps_user_fields [keyExField "a.b" (.num 1)]).2 (mkAuto "a" false)
     (by rw [show expandFieldListWithParents [keyExField "a.b" (.num 1)] =
           [mkAuto "a" false, keyExField "a.b" (.num 1)] from rfl]
         exact List.mem_cons_self _ _)⟩


/-! ## Hierarchy resolver: reachability, resolution chains, and cache lemmas -/

/-- The guard `item.parent_id && item.parent_id !== '0'` of the source. -/
def goodParent (it : Item) : Prop := it.parent_id ≠ "" ∧ it.parent_id ≠ "0"

instance (it : Item) : Decidable (goodParent it) := by unfold goodParent; infer_instance

/-- `Reach items x y`: starting from node id `x` and repeatedly following
`parent_id` links (through nodes that exist and have a non-root parent), one can
arrive at id `y`.  This is the transitive-reflexive closure of the parent edge
the source's recursion follows. -/
inductive Reach (items : List Item) : String → String → Prop
  | refl (x : String) : Reach items x x
  | step {x y : String} {it : Item} : lookupItem items x = some it →
      it.parent_id ≠ "" → it.parent_id ≠ "0" → Reach items it.parent_id y → Reach items x y

/-- `Chain items id c`: the full, terminating resolution chain of node id `id`:
`c` lists the items from the root ancestor down to `id`'s own item.  A node has
a chain exactly when the source's recursion, ignoring the cycle guard and
memoization, would terminate for it — the "acyclic"/resolvable nodes.  The
root-to-node name path of the spec is `c.map (·.name)`. -/
inductive Chain (items : List Item) : String → List Item → Prop
  | root {id : String} {it : Item} : lookupItem items id = some it →
      ¬ goodParent it → Chain items id [it]
  | step {id : String} {it : Item} {c : List Item} : lookupItem items id = some it →
      it.parent_id ≠ "" → it.parent_id ≠ "0" → Chain items it.parent_id c →
      Chain items id (c ++ [it])

/-- A successful lookup returns an item of the collection bearing the queried id. -/
theorem lookupItem_spec {items : List Item} {id : String} {it : Item}
    (h : lookupItem items id = some it) : it.target_id = id ∧ it ∈ items := by
  unfold lookupItem at h
  have hp := List.find?_some h
  have hm := List.mem_of_find?_eq_some h
  exact ⟨of_decide_eq_true hp, (List.mem_reverse).mp hm⟩

theorem lookupItem_mem_map {items : List Item} {id : String} {it : Item}
    (h : lookupItem items id = some it) : id ∈ items.map (·.target_id) := by
  obtain ⟨htid, hmem⟩ := lookupItem_spec h
  exact List.mem_map.mpr ⟨it, hmem, htid⟩

/-- On a collection with pairwise-distinct ids, lookup of a member's id returns
that member. -/
theorem lookupItem_nodup {items : List Item} (hnd : (items.map (·.target_id)).Nodup)
    {item : Item} (hmem : item ∈ items) :
    lookupItem items item.target_id = some item := by
  have hsome : (lookupItem items item.target_id).isSome := by
    unfold lookupItem
    exact List.find?_isSome.mpr ⟨item, List.mem_reverse.mpr hmem, by simp⟩
  obtain ⟨it, hit⟩ := Option.isSome_iff_exists.mp hsome
  obtain ⟨htid, hmem'⟩ := lookupItem_spec hit
  have : it = item := List.inj_on_of_nodup_map hnd hmem' hmem htid
  rw [hit, this]

/-- A chain is never empty. -/
theorem Chain.ne_nil {items : List Item} {id : String} {c : List Item}
    (h : Chain items id c) : c ≠ [] := by
  cases h with
  | root _ _ => simp
  | step _ _ _ _ => simp

/-- Resolution chains are unique (lookup is a function, and the branch taken is
determined by the found item's parent link). -/
theorem Chain.unique {items : List Item} {id : String} {c₁ c₂ : List Item}
    (h₁ : Chain items id c₁) (h₂ : Chain items id c₂) : c₁ = c₂ := by
  induction h₁ generalizing c₂ with
  | root hl hng =>
    cases h₂ with
    | root hl' hng' =>
      cases Option.some.inj (hl.symm.trans hl')
      rfl
    | step hl' hp1 hp2 _ =>
      cases Option.some.inj (hl.symm.trans hl')
      exact absurd ⟨hp1, hp2⟩ hng
  | step hl hp1 hp2 hc ih =>
    cases h₂ with
    | root hl' hng =>
      cases Option.some.inj (hl.symm.trans hl')
      exact absurd ⟨hp1, hp2⟩ hng
    | step hl' hp1' hp2' hc' =>
      cases Option.some.inj (hl.symm.trans hl')
      rw [ih hc']

/-- Appending one parent step to a reachability derivation. -/
theorem Reach.snoc {items : List Item} {x y : String} {it : Item}
    (h : Reach items x y) (hl : lookupItem items y = some it)
    (h1 : it.parent_id ≠ "") (h2 : it.parent_id ≠ "0") :
    Reach items x it.parent_id := by
  induction h with
  | refl z => exact Reach.step hl h1 h2 (Reach.refl _)
  | step hl' h1' h2' _ ih => exact Reach.step hl' h1' h2' (ih hl)

/-- Walking up from a resolvable node, every reachable node is resolvable with a
chain no longer than the original — strictly shorter if the walk moved. -/
theorem Chain.of_reach {items : List Item} {y z : String} {c : List Item}
    (hr : Reach items y z) (hc : Chain items y c) :
    ∃ c', Chain items z c' ∧ c'.length ≤ c.length ∧ (y = z ∨ c'.length < c.length) := by
  induction hr generalizing c with
  | refl x => exact ⟨c, hc, le_refl _, Or.inl rfl⟩
  | step hl h1 h2 _ ih =>
    cases hc with
    | root hl' hng =>
      rw [hl'] at hl
      exact absurd (Option.some.inj hl ▸ ⟨h1, h2⟩) hng
    | step hl' hp1 hp2 hc' =>
      rw [hl'] at hl
      cases Option.some.inj hl
      obtain ⟨c', h1', h2', -⟩ := ih hc'
      refine ⟨c', h1', ?_, Or.inr ?_⟩ <;> simp <;> omega

/-- Every member of a chain is reachable from the chain's node. -/
theorem Chain.mem_reach {items : List Item} {y : String} {c : List Item}
    (hc : Chain items y c) : ∀ m ∈ c, Reach items y m.target_id := by
  induction hc with
  | root hl hng =>
    intro m hm
    rw [List.mem_singleton] at hm
    subst hm
    rw [(lookupItem_spec hl).1]
    exact Reach.refl _
  | step hl h1 h2 hc' ih =>
    intro m hm
    rcases List.mem_append.mp hm with hm | hm
    · exact Reach.step hl h1 h2 (ih m hm)
    · rw [List.mem_singleton] at hm
      subst hm
      rw [(lookupItem_spec hl).1]
      exact Reach.refl _

/-- A resolvable node cannot lie strictly above itself: the ids along a chain
are pairwise distinct. -/
theorem Chain.ids_nodup {items : List Item} {id : String} {c : List Item}
    (hc : Chain items id c) : (c.map (·.target_id)).Nodup := by
  induction hc with
  | root _ _ => simp
  | step hl h1 h2 hc' ih =>
    rename_i id' it c'
    rw [List.map_append, List.map_singleton]
    rw [List.nodup_append]
    refine ⟨ih, by simp, ?_⟩
    intro x hx hx'
    simp only [List.mem_singleton] at hx'
    subst hx'
    obtain ⟨m, hm, hmid⟩ := List.mem_map.mp hx
    have hreach : Reach items it.parent_id id' := by
      have := Chain.mem_reach hc' m hm
      rw [hmid, (lookupItem_spec hl).1] at this
      exact this
    obtain ⟨c'', hc'', hlen, -⟩ := Chain.of_reach hreach hc'
    have : c'' = c' ++ [it] := Chain.unique hc'' (Chain.step hl h1 h2 hc')
    rw [this] at hlen
    simp at hlen

/-- Ids of a chain all belong to the collection's id list. -/
theorem Chain.ids_subset {items : List Item} {id : String} {c : List Item}
    (hc : Chain items id c) : ∀ m ∈ c, m.target_id ∈ items.map (·.target_id) := by
  induction hc with
  | root hl _ =>
    intro m hm
    rw [List.mem_singleton] at hm
    subst hm
    exact List.mem_map.mpr ⟨m, (lookupItem_spec hl).2, rfl⟩
  | step hl h1 h2 hc' ih =>
    intro m hm
    rcases List.mem_append.mp hm with hm | hm
    · exact ih m hm
    · rw [List.mem_singleton] at hm
      subst hm
      exact List.mem_map.mpr ⟨m, (lookupItem_spec hl).2, rfl⟩

/-- A list of pairwise-distinct elements drawn from `l` is no longer than `l`. -/
theorem nodup_subset_length_le {l l' : List String}
    (hnd : l.Nodup) (hsub : ∀ x ∈ l, x ∈ l') : l.length ≤ l'.length := by
  calc l.length = l.toFinset.card := (List.toFinset_card_of_nodup hnd).symm
    _ ≤ l'.toFinset.card := Finset.card_le_card (by
        intro x hx
        rw [List.mem_toFinset] at hx ⊢
        exact hsub x hx)
    _ ≤ l'.length := List.toFinset_card_le l'

/-- The length of a resolvable node's chain is bounded by the number of
collection ids outside `visited`, provided no chain id is in `visited`. -/
theorem Chain.length_le {items : List Item} {id : String} {c : List Item}
    (hc : Chain items id c) (visited : List String)
    (hdisj : ∀ m ∈ c, m.target_id ∉ visited) :
    c.length ≤ ((items.map (·.target_id)).filter (fun k => decide (k ∉ visited))).length := by
  have : c.length = (c.map (·.target_id)).length := by simp
  rw [this]
  refine nodup_subset_length_le hc.ids_nodup ?_
  intro x hx
  obtain ⟨m, hm, rfl⟩ := List.mem_map.mp hx
  refine List.mem_filter.mpr ⟨hc.ids_subset m hm, ?_⟩
  exact decide_eq_true (hdisj m hm)


/-- Lookup in the memoization map after prepending one entry. -/
theorem pmFind_cons (k : String) (v : List String) (st : PathMap) (q : String) :
    pmFind ((k, v) :: st) q = if k = q then some v else pmFind st q := by
  by_cases h : k = q <;> simp [pmFind, List.find?_cons, h]

/-- Branch lemmas for `buildPath`, one per execution path of the source. -/
theorem buildPath_cache {items : List Item} {fuel : Nat} {st : PathMap} {id : String}
    {visited : List String} {p : List String} (h : pmFind st id = some p) :
    buildPath items fuel st id visited = (p, st) := by
  rw [buildPath, h]

theorem buildPath_visited {items : List Item} {fuel : Nat} {st : PathMap} {id : String}
    {visited : List String} (h : pmFind st id = none) (hv : id ∈ visited) :
    buildPath items fuel st id visited = ([], st) := by
  rw [buildPath, h, if_pos hv]

theorem buildPath_noitem {items : List Item} {fuel : Nat} {st : PathMap} {id : String}
    {visited : List String} (h : pmFind st id = none) (hv : id ∉ visited)
    (hl : lookupItem items id = none) :
    buildPath items fuel st id visited = ([], st) := by
  rw [buildPath, h, if_neg hv, hl]

theorem buildPath_fuelzero {items : List Item} {st : PathMap} {id : String}
    {visited : List String} {it : Item} (h : pmFind st id = none) (hv : id ∉ visited)
    (hl : lookupItem items id = some it) :
    buildPath items 0 st id visited = ([], st) := by
  rw [buildPath, h, if_neg hv, hl]

theorem buildPath_succ_root {items : List Item} {fuel : Nat} {st : PathMap} {id : String}
    {visited : List String} {it : Item} (h : pmFind st id = none) (hv : id ∉ visited)
    (hl : lookupItem items id = some it) (hg : ¬ (it.parent_id ≠ "" ∧ it.parent_id ≠ "0")) :
    buildPath items (fuel + 1) st id visited = ([it.name], (id, [it.name]) :: st) := by
  rw [buildPath]
  simp only [h, hl, if_neg hv, if_neg hg, List.nil_append]

theorem buildPath_succ_parent {items : List Item} {fuel : Nat} {st : PathMap} {id : String}
    {visited : List String} {it : Item} (h : pmFind st id = none) (hv : id ∉ visited)
    (hl : lookupItem items id = some it) (hg : it.parent_id ≠ "" ∧ it.parent_id ≠ "0") :
    buildPath items (fuel + 1) st id visited =
      ((buildPath items fuel st it.parent_id (id :: visited)).1 ++ [it.name],
        (id, (buildPath items fuel st it.parent_id (id :: visited)).1 ++ [it.name]) ::
          (buildPath items fuel st it.parent_id (id :: visited)).2) := by
  rw [buildPath]
  simp only [h, hl, if_neg hv, if_pos hg]

/-- Shrinking of the unvisited-id count when the recursion pushes `id` onto the
visited stack. -/
theorem filter_cons_lt {l visited : List String} {id : String}
    (hid : id ∈ l) (hv : id ∉ visited) :
    (l.filter (fun k => decide (k ∉ id :: visited))).length <
      (l.filter (fun k => decide (k ∉ visited))).length := by
  induction l with
  | nil => cases hid
  | cons a rest ih =>
    by_cases hai : a = id
    · subst hai
      rw [List.filter_cons, List.filter_cons]
      have h1 : decide (a ∉ a :: visited) = false := by simp
      have h2 : decide (a ∉ visited) = true := decide_eq_true hv
      rw [h1, h2]
      have hmono : List.Sublist (rest.filter (fun k => decide (k ∉ a :: visited)))
          (rest.filter (fun k => decide (k ∉ visited))) := by
        refine List.monotone_filter_right rest ?_
        intro x hx
        simp only [decide_eq_true_eq, List.mem_cons, not_or] at hx ⊢
        exact hx.2
      have hle := hmono.length_le
      simpa using Nat.lt_succ_of_le hle
    · have heq : decide (a ∉ id :: visited) = decide (a ∉ visited) := by
        apply decide_eq_decide.mpr
        simp [List.mem_cons, hai]
      have hid' : id ∈ rest := by
        rcases List.mem_cons.mp hid with h | h
        · exact absurd h.symm hai
        · exact h
      rw [List.filter_cons, List.filter_cons, heq]
      cases h : decide (a ∉ visited) with
      | false => simpa using ih hid'
      | true =>
        have := ih hid'
        simpa using Nat.succ_lt_succ this

/-- The chain of a node being resolved is disjoint from the visited stack. -/
theorem chain_disjoint_stack {items : List Item} {id : String} {c : List Item}
    {visited : List String} (hc : Chain items id c)
    (hstack : ∀ x ∈ visited, Reach items x id) (hv : id ∉ visited) :
    ∀ m ∈ c, m.target_id ∉ visited := by
  intro m hm hmem
  have h1 : Reach items id m.target_id := hc.mem_reach m hm
  have h2 : Reach items m.target_id id := hstack _ hmem
  obtain ⟨cm, hcm, hlm, hor⟩ := Chain.of_reach h1 hc
  obtain ⟨cid, hcid, hlid, -⟩ := Chain.of_reach h2 hcm
  have hcc : cid = c := Chain.unique hcid hc
  subst hcc
  rcases hor with h | h
  · rw [← h] at hmem
    exact hv hmem
  · omega

/-- The last item of a chain carries the chain's node id. -/
theorem Chain.last_tid {items : List Item} {y : String} {c : List Item}
    (hc : Chain items y c) : ∃ m ∈ c, m.target_id = y := by
  cases hc with
  | root hl _ => exact ⟨_, List.mem_singleton_self _, (lookupItem_spec hl).1⟩
  | step hl _ _ _ =>
    exact ⟨_, List.mem_append_right _ (List.mem_singleton_self _), (lookupItem_spec hl).1⟩

/-- Inversion of a chain at a node whose item has a live parent link. -/
theorem chain_step_decompose {items : List Item} {id : String} {c : List Item} {it : Item}
    (hc : Chain items id c) (hlook : lookupItem items id = some it)
    (hpar : it.parent_id ≠ "" ∧ it.parent_id ≠ "0") :
    ∃ c₀, c = c₀ ++ [it] ∧ Chain items it.parent_id c₀ := by
  cases hc with
  | root hl hng =>
    cases Option.some.inj (hl.symm.trans hlook)
    exact absurd hpar hng
  | step hl h1 h2 hc₀ =>
    cases Option.some.inj (hl.symm.trans hlook)
    exact ⟨_, rfl, hc₀⟩

/-- During resolution of a resolvable node, its parent is neither the node
itself nor on the visited stack. -/
theorem parent_not_in_stack {items : List Item} {id : String} {c₀ : List Item} {it : Item}
    {visited : List String} (hlook : lookupItem items id = some it)
    (hpar : it.parent_id ≠ "" ∧ it.parent_id ≠ "0")
    (hc₀ : Chain items it.parent_id c₀)
    (hstack : ∀ x ∈ visited, Reach items x id) (hv : id ∉ visited) :
    it.parent_id ∉ id :: visited := by
  intro hmem
  have hc : Chain items id (c₀ ++ [it]) := Chain.step hlook hpar.1 hpar.2 hc₀
  rcases List.mem_cons.mp hmem with h | h
  · have hc₀' : Chain items id c₀ := h ▸ hc₀
    have heq := Chain.unique hc₀' hc
    have := congrArg List.length heq
    simp at this
  · obtain ⟨m, hm, hmtid⟩ := Chain.last_tid hc₀
    exact chain_disjoint_stack hc hstack hv m (List.mem_append_left _ hm) (hmtid ▸ h)

/-- Cached entries for resolvable nodes hold exactly the root-to-node name
path. Entries for unresolvable nodes are unconstrained. -/
def GoodCache (items : List Item) (st : PathMap) : Prop :=
  ∀ k q, pmFind st k = some q → ∀ c, Chain items k c → q = c.map (·.name)

/-- Main correctness lemma for one `buildPath` call: the cache stays good, no
entry disappears, and a resolvable target off the visited stack computes (and
caches) exactly its root-to-node name path. -/
theorem buildPath_spec (items : List Item) :
    ∀ (fuel : Nat) (st : PathMap) (id : String) (visited : List String),
      GoodCache items st →
      (∀ x ∈ visited, Reach items x id) →
      ((items.map (·.target_id)).filter (fun k => decide (k ∉ visited))).length ≤ fuel →
      GoodCache items (buildPath items fuel st id visited).2
      ∧ (∀ k, (pmFind st k).isSome = true →
          (pmFind (buildPath items fuel st id visited).2 k).isSome = true)
      ∧ ∀ c, Chain items id c → id ∉ visited →
          (buildPath items fuel st id visited).1 = c.map (·.name)
          ∧ pmFind (buildPath items fuel st id visited).2 id = some (c.map (·.name)) := by
  intro fuel
  induction fuel with
  | zero =>
    intro st id visited hGC hstack hfuel
    cases hfind : pmFind st id with
    | some p =>
      rw [buildPath_cache hfind]
      refine ⟨hGC, fun k hk => hk, ?_⟩
      intro c hc _
      have hp := hGC id p hfind c hc
      exact ⟨hp, hfind.trans (congrArg some hp)⟩
    | none =>
      by_cases hv : id ∈ visited
      · rw [buildPath_visited hfind hv]
        exact ⟨hGC, fun k hk => hk, fun c hc hv' => absurd hv hv'⟩
      · cases hlook : lookupItem items id with
        | none =>
          rw [buildPath_noitem hfind hv hlook]
          refine ⟨hGC, fun k hk => hk, ?_⟩
          intro c hc _
          exfalso
          cases hc with
          | root hl _ => rw [hl] at hlook; exact Option.noConfusion hlook
          | step hl _ _ _ => rw [hl] at hlook; exact Option.noConfusion hlook
        | some it =>
          rw [buildPath_fuelzero hfind hv hlook]
          refine ⟨hGC, fun k hk => hk, ?_⟩
          intro c hc hv'
          exfalso
          have hdisj := chain_disjoint_stack hc hstack hv'
          have hlen := Chain.length_le hc visited hdisj
          have hne := hc.ne_nil
          have hpos : 0 < c.length := List.length_pos.mpr hne
          omega
  | succ fuel ih =>
    intro st id visited hGC hstack hfuel
    cases hfind : pmFind st id with
    | some p =>
      rw [buildPath_cache hfind]
      refine ⟨hGC, fun k hk => hk, ?_⟩
      intro c hc _
      have hp := hGC id p hfind c hc
      exact ⟨hp, hfind.trans (congrArg some hp)⟩
    | none =>
      by_cases hv : id ∈ visited
      · rw [buildPath_visited hfind hv]
        exact ⟨hGC, fun k hk => hk, fun c hc hv' => absurd hv hv'⟩
      · cases hlook : lookupItem items id with
        | none =>
          rw [buildPath_noitem hfind hv hlook]
          refine ⟨hGC, fun k hk => hk, ?_⟩
          intro c hc _
          exfalso
          cases hc with
          | root hl _ => rw [hl] at hlook; exact Option.noConfusion hlook
          | step hl _ _ _ => rw [hl] at hlook; exact Option.noConfusion hlook
        | some it =>
          by_cases hpar : it.parent_id ≠ "" ∧ it.parent_id ≠ "0"
          · rw [buildPath_succ_parent hfind hv hlook hpar]
            have hstack' : ∀ x ∈ id :: visited, Reach items x it.parent_id := by
              intro x hx
              rcases List.mem_cons.mp hx with hx | hx
              · subst hx; exact Reach.step hlook hpar.1 hpar.2 (Reach.refl _)
              · exact (hstack x hx).snoc hlook hpar.1 hpar.2
            have hfuel' : ((items.map (·.target_id)).filter
                (fun k => decide (k ∉ id :: visited))).length ≤ fuel := by
              have hlt := filter_cons_lt (lookupItem_mem_map hlook) hv
              omega
            obtain ⟨ihGC, ihdom, ihres⟩ := ih st it.parent_id (id :: visited) hGC hstack' hfuel'
            refine ⟨?_, ?_, ?_⟩
            · intro k q hkq c hc
              rw [pmFind_cons] at hkq
              by_cases hk : id = k
              · subst hk
                rw [if_pos rfl] at hkq
                cases Option.some.inj hkq
                obtain ⟨c₀, rfl, hc₀⟩ := chain_step_decompose hc hlook hpar
                have hpnot := parent_not_in_stack hlook hpar hc₀ hstack hv
                have hres := ihres c₀ hc₀ hpnot
                rw [hres.1, List.map_append, List.map_singleton]
              · rw [if_neg hk] at hkq
                exact ihGC k q hkq c hc
            · intro k hk
              rw [pmFind_cons]
              by_cases hk' : id = k
              · simp [if_pos hk']
              · rw [if_neg hk']
                exact ihdom k hk
            · intro c hc _
              obtain ⟨c₀, rfl, hc₀⟩ := chain_step_decompose hc hlook hpar
              have hpnot := parent_not_in_stack hlook hpar hc₀ hstack hv
              have hres := ihres c₀ hc₀ hpnot
              constructor
              · rw [hres.1, List.map_append, List.map_singleton]
              · rw [pmFind_cons, if_pos rfl, hres.1, List.map_append, List.map_singleton]
          · rw [buildPath_succ_root hfind hv hlook hpar]
            refine ⟨?_, ?_, ?_⟩
            · intro k q hkq c hc
              rw [pmFind_cons] at hkq
              by_cases hk : id = k
              · subst hk
                rw [if_pos rfl] at hkq
                cases Option.some.inj hkq
                cases hc with
                | root hl _ =>
                  cases Option.some.inj (hl.symm.trans hlook)
                  simp
                | step hl h1 h2 _ =>
                  cases Option.some.inj (hl.symm.trans hlook)
                  exact absurd ⟨h1, h2⟩ hpar
              · rw [if_neg hk] at hkq
                exact hGC k q hkq c hc
            · intro k hk
              rw [pmFind_cons]
              by_cases hk' : id = k
              · simp [if_pos hk']
              · rw [if_neg hk']
                exact hk
            · intro c hc _
              have hcroot : c = [it] := by
                cases hc with
                | root hl _ =>
                  cases Option.some.inj (hl.symm.trans hlook)
                  rfl
                | step hl h1 h2 _ =>
                  cases Option.some.inj (hl.symm.trans hlook)
                  exact absurd ⟨h1, h2⟩ hpar
              subst hcroot
              exact ⟨by simp, by rw [pmFind_cons, if_pos rfl]; simp⟩


/-- `buildPath` never removes a cache entry. -/
theorem buildPath_dom_mono (items : List Item) :
    ∀ (fuel : Nat) (st : PathMap) (id : String) (visited : List String) (k : String),
      (pmFind st k).isSome = true →
      (pmFind (buildPath items fuel st id visited).2 k).isSome = true := by
  intro fuel
  induction fuel with
  | zero =>
    intro st id visited k hk
    cases hfind : pmFind st id with
    | some p => rw [buildPath_cache hfind]; exact hk
    | none =>
      by_cases hv : id ∈ visited
      · rw [buildPath_visited hfind hv]; exact hk
      · cases hlook : lookupItem items id with
        | none => rw [buildPath_noitem hfind hv hlook]; exact hk
        | some it => rw [buildPath_fuelzero hfind hv hlook]; exact hk
  | succ fuel ih =>
    intro st id visited k hk
    cases hfind : pmFind st id with
    | some p => rw [buildPath_cache hfind]; exact hk
    | none =>
      by_cases hv : id ∈ visited
      · rw [buildPath_visited hfind hv]; exact hk
      · cases hlook : lookupItem items id with
        | none => rw [buildPath_noitem hfind hv hlook]; exact hk
        | some it =>
          by_cases hpar : it.parent_id ≠ "" ∧ it.parent_id ≠ "0"
          · rw [buildPath_succ_parent hfind hv hlook hpar, pmFind_cons]
            by_cases hk' : id = k
            · simp [if_pos hk']
            · rw [if_neg hk']
              exact ih st it.parent_id (id :: visited) k hk
          · rw [buildPath_succ_root hfind hv hlook hpar, pmFind_cons]
            by_cases hk' : id = k
            · simp [if_pos hk']
            · rw [if_neg hk']; exact hk

/-- Every cache entry is a non-empty path ending in the name of the item the
collection resolves for that id. -/
def NvOk (items : List Item) (st : PathMap) : Prop :=
  ∀ k q, pmFind st k = some q →
    ∃ it, lookupItem items k = some it ∧ q ≠ [] ∧ q.getLast? = some it.name

/-- `buildPath` preserves the non-empty-path invariant. -/
theorem buildPath_nvOk (items : List Item) :
    ∀ (fuel : Nat) (st : PathMap) (id : String) (visited : List String),
      NvOk items st → NvOk items (buildPath items fuel st id visited).2 := by
  intro fuel
  induction fuel with
  | zero =>
    intro st id visited hnv
    cases hfind : pmFind st id with
    | some p => rw [buildPath_cache hfind]; exact hnv
    | none =>
      by_cases hv : id ∈ visited
      · rw [buildPath_visited hfind hv]; exact hnv
      · cases hlook : lookupItem items id with
        | none => rw [buildPath_noitem hfind hv hlook]; exact hnv
        | some it => rw [buildPath_fuelzero hfind hv hlook]; exact hnv
  | succ fuel ih =>
    intro st id visited hnv
    cases hfind : pmFind st id with
    | some p => rw [buildPath_cache hfind]; exact hnv
    | none =>
      by_cases hv : id ∈ visited
      · rw [buildPath_visited hfind hv]; exact hnv
      · cases hlook : lookupItem items id with
        | none => rw [buildPath_noitem hfind hv hlook]; exact hnv
        | some it =>
          by_cases hpar : it.parent_id ≠ "" ∧ it.parent_id ≠ "0"
          · rw [buildPath_succ_parent hfind hv hlook hpar]
            intro k q hkq
            rw [pmFind_cons] at hkq
            by_cases hk : id = k
            · rw [if_pos hk] at hkq
              cases Option.some.inj hkq
              subst hk
              exact ⟨it, hlook, by simp, List.getLast?_concat _⟩
            · rw [if_neg hk] at hkq
              exact ih st it.parent_id (id :: visited) hnv k q hkq
          · rw [buildPath_succ_root hfind hv hlook hpar]
            intro k q hkq
            rw [pmFind_cons] at hkq
            by_cases hk : id = k
            · rw [if_pos hk] at hkq
              cases Option.some.inj hkq
              subst hk
              exact ⟨it, hlook, by simp, rfl⟩
            · rw [if_neg hk] at hkq
              exact hnv k q hkq

/-- With positive fuel, a call for an existing, unvisited node always leaves an
entry for that node in the map. -/
theorem buildPath_sets (items : List Item) {fuel : Nat} {st : PathMap} {id : String}
    {visited : List String} (hf : 0 < fuel) (hv : id ∉ visited)
    (hl : (lookupItem items id).isSome = true) :
    (pmFind (buildPath items fuel st id visited).2 id).isSome = true := by
  cases hfind : pmFind st id with
  | some p => rw [buildPath_cache hfind, hfind]; rfl
  | none =>
    obtain ⟨it, hit⟩ := Option.isSome_iff_exists.mp hl
    cases fuel with
    | zero => omega
    | succ fuel =>
      by_cases hpar : it.parent_id ≠ "" ∧ it.parent_id ≠ "0"
      · rw [buildPath_succ_parent hfind hv hit hpar, pmFind_cons, if_pos rfl]; rfl
      · rw [buildPath_succ_root hfind hv hit hpar, pmFind_cons, if_pos rfl]; rfl

/-- Fuel stability: any two fuels at least the number of unvisited collection
ids compute the same result — in particular the `fuel = 0` fallback branch is
unreachable from `buildPathMap`'s top-level calls, so the fuel embedding is
faithful to the source's recursion. -/
theorem buildPath_fuel_stable (items : List Item) :
    ∀ (f₁ f₂ : Nat) (st : PathMap) (id : String) (visited : List String),
      ((items.map (·.target_id)).filter (fun k => decide (k ∉ visited))).length ≤ f₁ →
      ((items.map (·.target_id)).filter (fun k => decide (k ∉ visited))).length ≤ f₂ →
      buildPath items f₁ st id visited = buildPath items f₂ st id visited := by
  intro f₁
  induction f₁ with
  | zero =>
    intro f₂ st id visited h₁ h₂
    cases hfind : pmFind st id with
    | some p => rw [buildPath_cache hfind, buildPath_cache hfind]
    | none =>
      by_cases hv : id ∈ visited
      · rw [buildPath_visited hfind hv, buildPath_visited hfind hv]
      · cases hlook : lookupItem items id with
        | none => rw [buildPath_noitem hfind hv hlook, buildPath_noitem hfind hv hlook]
        | some it =>
          exfalso
          have hmem : id ∈ (items.map (·.target_id)).filter (fun k => decide (k ∉ visited)) :=
            List.mem_filter.mpr ⟨lookupItem_mem_map hlook, decide_eq_true hv⟩
          have := List.length_pos.mpr (List.ne_nil_of_mem hmem)
          omega
  | succ f₁ ih =>
    intro f₂ st id visited h₁ h₂
    cases hfind : pmFind st id with
    | some p => rw [buildPath_cache hfind, buildPath_cache hfind]
    | none =>
      by_cases hv : id ∈ visited
      · rw [buildPath_visited hfind hv, buildPath_visited hfind hv]
      · cases hlook : lookupItem items id with
        | none => rw [buildPath_noitem hfind hv hlook, buildPath_noitem hfind hv hlook]
        | some it =>
          have hmem : id ∈ (items.map (·.target_id)).filter (fun k => decide (k ∉ visited)) :=
            List.mem_filter.mpr ⟨lookupItem_mem_map hlook, decide_eq_true hv⟩
          have hpos := List.length_pos.mpr (List.ne_nil_of_mem hmem)
          cases f₂ with
          | zero => omega
          | succ f₂ =>
            have hlt := filter_cons_lt (l := items.map (·.target_id))
              (lookupItem_mem_map hlook) hv
            by_cases hpar : it.parent_id ≠ "" ∧ it.parent_id ≠ "0"
            · rw [buildPath_succ_parent hfind hv hlook hpar,
                buildPath_succ_parent hfind hv hlook hpar,
                ih f₂ st it.parent_id (id :: visited) (by omega) (by omega)]
            · rw [buildPath_succ_root hfind hv hlook hpar,
                buildPath_succ_root hfind hv hlook hpar]

/-- Invariants carried through the `allItems.forEach` fold of `buildPathMap`. -/
theorem buildPathMap_fold_inv (items : List Item) :
    ∀ (l : List Item) (st : PathMap),
      GoodCache items st → NvOk items st →
      GoodCache items (l.foldl
          (fun st item => (buildPath items items.length st item.target_id []).2) st)
      ∧ NvOk items (l.foldl
          (fun st item => (buildPath items items.length st item.target_id []).2) st)
      ∧ (∀ k, (pmFind st k).isSome = true →
          (pmFind (l.foldl
            (fun st item => (buildPath items items.length st item.target_id []).2) st)
            k).isSome = true)
      ∧ ∀ item ∈ l, (lookupItem items item.target_id).isSome = true →
          (pmFind (l.foldl
            (fun st item => (buildPath items items.length st item.target_id []).2) st)
            item.target_id).isSome = true := by
  have hfuel : ∀ visited₀ : List String, visited₀ = [] →
      ((items.map (·.target_id)).filter (fun k => decide (k ∉ visited₀))).length ≤
        items.length := by
    rintro _ rfl
    have : (items.map (·.target_id)).filter (fun k => decide (k ∉ ([] : List String))) =
        items.map (·.target_id) := List.filter_eq_self.mpr (by intro a _; simp)
    rw [this, List.length_map]
  intro l
  induction l with
  | nil =>
    intro st h1 h2
    exact ⟨h1, h2, fun k hk => hk, by simp⟩
  | cons item rest ih =>
    intro st h1 h2
    rw [List.foldl_cons]
    have hspec := buildPath_spec items items.length st item.target_id [] h1
      (by simp) (hfuel [] rfl)
    have hstep1 : GoodCache items (buildPath items items.length st item.target_id []).2 :=
      hspec.1
    have hstep2 : NvOk items (buildPath items items.length st item.target_id []).2 :=
      buildPath_nvOk items items.length st item.target_id [] h2
    obtain ⟨ih1, ih2, ih3, ih4⟩ := ih _ hstep1 hstep2
    refine ⟨ih1, ih2, ?_, ?_⟩
    · intro k hk
      exact ih3 k (buildPath_dom_mono items items.length st item.target_id [] k hk)
    · intro it' hit' hlk
      rcases List.mem_cons.mp hit' with hit' | hit'
      · subst hit'
        have hlenpos : 0 < items.length := by
          obtain ⟨x, hx⟩ := Option.isSome_iff_exists.mp hlk
          exact List.length_pos.mpr (fun hnil => by
            subst hnil
            simp [lookupItem] at hx)
        exact ih3 _ (buildPath_sets items hlenpos (by simp) hlk)
      · exact ih4 it' hit' hlk

/-- Every resolvable node's entry in the finished map is exactly its
root-to-node name path — even when other nodes of the collection lie on
parent-link cycles. -/
theorem buildPathMap_resolves (items : List Item) :
    ∀ (id : String) (c : List Item), Chain items id c →
      pmFind (buildPathMap items) id = some (c.map (·.name)) := by
  intro id c hc
  have hl : ∃ it, lookupItem items id = some it := by
    cases hc with
    | root hl _ => exact ⟨_, hl⟩
    | step hl _ _ _ => exact ⟨_, hl⟩
  obtain ⟨it, hit⟩ := hl
  obtain ⟨htid, hmem⟩ := lookupItem_spec hit
  obtain ⟨hGC, -, -, hset⟩ := buildPathMap_fold_inv items items [] (by intro k q h; cases h)
    (by intro k q h; cases h)
  have hsome : (pmFind (buildPathMap items) id).isSome = true := by
    have := hset it hmem (by rw [htid, hit]; rfl)
    rwa [htid] at this
  obtain ⟨q, hq⟩ := Option.isSome_iff_exists.mp hsome
  rw [hq, hGC id q hq c hc]

/-- Every node of the collection receives an entry, and every entry is a
non-empty name path ending in the resolved item's name. -/
theorem buildPathMap_entries (items : List Item) :
    ∀ item ∈ items, ∃ p, pmFind (buildPathMap items) item.target_id = some p
      ∧ p ≠ [] ∧ ∃ it, lookupItem items item.target_id = some it
        ∧ p.getLast? = some it.name := by
  intro item hmem
  obtain ⟨-, hNv, -, hset⟩ := buildPathMap_fold_inv items items [] (by intro k q h; cases h)
    (by intro k q h; cases h)
  have hlk : (lookupItem items item.target_id).isSome = true := by
    unfold lookupItem
    exact List.find?_isSome.mpr ⟨item, List.mem_reverse.mpr hmem, by simp⟩
  obtain ⟨q, hq⟩ := Option.isSome_iff_exists.mp (hset item hmem hlk)
  obtain ⟨it, hit, hne, hlast⟩ := hNv _ _ hq
  exact ⟨q, hq, hne, it, hit, hlast⟩


/-! ## Claim C10 — every node gets an entry ending in its own name -/

/-- C10 (corrected): on a collection with pairwise-distinct node ids, the map
returned by `buildPathMap` holds an entry for every node's id, and every such
entry is a non-empty name sequence whose last element is that node's own name —
including nodes on parent-link cycles. -/
theorem C10_entry_ends_own_name (items : List Item)
    (hnd : (items.map (·.target_id)).Nodup) :
    ∀ item ∈ items, ∃ p, pmFind (buildPathMap items) item.target_id = some p
      ∧ p ≠ [] ∧ p.getLast? = some item.name := by
  intro item hmem
  obtain ⟨p, hp, hne, it, hit, hlast⟩ := buildPathMap_entries items item hmem
  have heq : it = item := by
    have h2 := lookupItem_nodup hnd hmem
    exact Option.some.inj (hit.symm.trans h2)
  subst heq
  exact ⟨p, hp, hne, hlast⟩

/-- Counterexample to C10 as stated: with a duplicated `target_id`, the later
node shadows the earlier one in `itemMap`, so the single entry for the shared
id ends in the *later* node's name, not the earlier node's own name. -/
theorem C10_counterexample :
    (⟨"X", "0", "n1"⟩ : Item) ∈ [(⟨"X", "0", "n1"⟩ : Item), ⟨"X", "0", "n2"⟩]
    ∧ pmFind (buildPathMap [(⟨"X", "0", "n1"⟩ : Item), ⟨"X", "0", "n2"⟩])
        (Item.mk "X" "0" "n1").target_id = some ["n2"]
    ∧ (Item.mk "X" "0" "n1").name ≠ "n2" :=
  ⟨by decide, by decide, by decide⟩

/-- Witness for C10 at a concrete collection containing a two-node cycle. -/
theorem C10_witness :
    ∃ p, pmFind (buildPathMap
        [(⟨"A", "B", "nA"⟩ : Item), ⟨"B", "A", "nB"⟩, ⟨"C", "0", "nC"⟩]) "A" = some p
      ∧ p ≠ [] ∧ p.getLast? = some "nA" :=
  C10_entry_ends_own_name
    [(⟨"A", "B", "nA"⟩ : Item), ⟨"B", "A", "nB"⟩, ⟨"C", "0", "nC"⟩]
    (by decide) ⟨"A", "B", "nA"⟩ (by decide)

/-! ## Claim C1 — cycle safety of `buildPathMap` -/

/-- C1 (corrected): on any collection containing a two-node parent cycle
`A.parent_id = B.target_id`, `B.parent_id = A.target_id`, `buildPathMap`
terminates without throwing or looping and gives each of the two cycle nodes a
*non-empty* truncated path ending in that node's own name (the recursion is cut
at the revisited node and the partial path is memoized — the entries are not
`[]`), and every resolvable (acyclic-chain) node of the same collection still
maps to its full root-to-node name path. -/
theorem C1_cycle_nonfatal (items : List Item) (a b : String) (A B : Item)
    (ha : lookupItem items a = some A) (hb : lookupItem items b = some B)
    (_hA : A.parent_id = b) (_hB : B.parent_id = a)
    (_hag : a ≠ "" ∧ a ≠ "0") (_hbg : b ≠ "" ∧ b ≠ "0") :
    (∃ p, pmFind (buildPathMap items) a = some p ∧ p ≠ [] ∧ p.getLast? = some A.name)
    ∧ (∃ p, pmFind (buildPathMap items) b = some p ∧ p ≠ [] ∧ p.getLast? = some B.name)
    ∧ ∀ (id : String) (c : List Item), Chain items id c →
        pmFind (buildPathMap items) id = some (c.map (·.name)) := by
  have hconj : ∀ (x : String) (X : Item), lookupItem items x = some X →
      ∃ p, pmFind (buildPathMap items) x = some p ∧ p ≠ [] ∧ p.getLast? = some X.name := by
    intro x X hx
    obtain ⟨htid, hmem⟩ := lookupItem_spec hx
    obtain ⟨p, hp, hne, it, hit, hlast⟩ := buildPathMap_entries items X hmem
    rw [htid] at hp hit
    cases Option.some.inj (hit.symm.trans hx)
    exact ⟨p, hp, hne, hlast⟩
  exact ⟨hconj a A ha, hconj b B hb, buildPathMap_resolves items⟩

/-- Counterexample to C1 as stated: on the two-node cycle the source does *not*
return `[]` for both nodes — the node processed first gets the two-name
truncated path and the other its own name alone. -/
theorem C1_counterexample :
    pmFind (buildPathMap [(⟨"A", "B", "nA"⟩ : Item), ⟨"B", "A", "nB"⟩]) "A" =
      some ["nB", "nA"]
    ∧ pmFind (buildPathMap [(⟨"A", "B", "nA"⟩ : Item), ⟨"B", "A", "nB"⟩]) "B" =
      some ["nB"]
    ∧ ["nB", "nA"] ≠ ([] : List String) ∧ ["nB"] ≠ ([] : List String) :=
  ⟨by decide, by decide, by decide, by decide⟩

/-- Witness for C1: a collection holding the cycle `A ↔ B` and the acyclic
chain `C → D`; both cycle nodes keep non-empty own-name-terminated entries and
`D` resolves to its full path `["nC", "nD"]`. -/
theorem C1_witness :
    (∃ p, pmFind (buildPathMap [(⟨"A", "B", "nA"⟩ : Item), ⟨"B", "A", "nB"⟩,
        ⟨"C", "0", "nC"⟩, ⟨"D", "C", "nD"⟩]) "A" = some p
      ∧ p ≠ [] ∧ p.getLast? = some "nA")
    ∧ pmFind (buildPathMap [(⟨"A", "B", "nA"⟩ : Item), ⟨"B", "A", "nB"⟩,
        ⟨"C", "0", "nC"⟩, ⟨"D", "C", "nD"⟩]) "D" =
      some (([(⟨"C", "0", "nC"⟩ : Item), ⟨"D", "C", "nD"⟩]).map (·.name)) := by
  have hmain := C1_cycle_nonfatal
    [(⟨"A", "B", "nA"⟩ : Item), ⟨"B", "A", "nB"⟩, ⟨"C", "0", "nC"⟩, ⟨"D", "C", "nD"⟩]
    "A" "B" ⟨"A", "B", "nA"⟩ ⟨"B", "A", "nB"⟩ (by decide) (by decide) rfl rfl
    (by decide) (by decide)
  refine ⟨hmain.1, ?_⟩
  refine hmain.2.2 "D" [⟨"C", "0", "nC"⟩, ⟨"D", "C", "nD"⟩] ?_
  exact Chain.step (by decide) (by decide) (by decide)
    (Chain.root (by decide) (by decide))


/-! ## Claim C3 — ancestor coverage of the expanded list -/

/-- A field with only a key (all other properties absent). -/
def keyField (k : String) : Field := { Field.empty with key := k }

/-- A field's path "is" the string `p` either literally (its raw key — the form
auto-parents carry) or through its cleaned form (array markers stripped — the
form in which `ensureParent` compares ancestor paths). -/
def pathMatches (g : Field) (p : String) : Prop :=
  g.key = p ∨ cleanedFull g.key = p

instance (g : Field) (p : String) : Decidable (pathMatches g p) :=
  inferInstanceAs (Decidable (g.key = p ∨ cleanedFull g.key = p))

/-- Every proper cleaned ancestor path of every entry of `l` appears *earlier*
in `l` as some field's path. -/
def coveredAt (l : List Field) : Prop :=
  ∀ i : Fin l.length, ∀ j : Fin (segsOf (l.get i).key).length, 0 < j.val →
    ∃ g ∈ l.take i.val, pathMatches g (cleanedAt (l.get i).key j.val)

instance (l : List Field) : Decidable (coveredAt l) :=
  inferInstanceAs (Decidable (∀ i : Fin l.length, ∀ j : Fin (segsOf (l.get i).key).length,
    0 < j.val → ∃ g ∈ l.take i.val, pathMatches g (cleanedAt (l.get i).key j.val)))

/-- Input wellformedness forced by the counterexample: every input field whose
key coincides with a proper cleaned ancestor path of another field's key is
declared *before* that field. -/
def parentsDeclaredFirst (fields : List Field) : Prop :=
  ∀ i : Fin fields.length, ∀ j : Fin (segsOf (fields.get i).key).length, 0 < j.val →
    cleanedAt (fields.get i).key j.val ∈ (fields.filter (fun f => f.key ≠ "")).map (·.key) →
    ∃ i' : Fin fields.length, i'.val < i.val ∧
      (fields.get i').key = cleanedAt (fields.get i).key j.val

instance (fields : List Field) : Decidable (parentsDeclaredFirst fields) := by
  unfold parentsDeclaredFirst
  infer_instance

/-- Counterexample to C3 as stated: for the input `[{key:"a.b"}, {key:"a"}]`
the output is `[{key:"a.b"}, {key:"a"}]` — the proper ancestor path `"a"` of
the first output field appears only later, not earlier (the user declared the
parent after the child, and the auto-parent is suppressed by `userKeys`).
Second conjunct: parent-declared-first order alone does not save the claim —
with the doubled array marker `a[][]` the inserted auto-parent `a[].b` has the
uncovered proper ancestor path `a`, because cleaning `a[][]` strips only one
`[]` pair, so the prefix walk of the child's key never produces `a`. -/
theorem C3_counterexample :
    ¬ coveredAt (expandFieldListWithParents [keyField "a.b", keyField "a"]) ∧
    parentsDeclaredFirst [keyField "a[][]", keyField "a[][].b.c"] ∧
    ¬ coveredAt (expandFieldListWithParents
        [keyField "a[][]", keyField "a[][].b.c"]) := by
  exact ⟨by decide, by decide, by decide⟩


/-! ### Splitting and joining of cleaned paths

These lemmas relate `segsOf` (the model of `key.split('.')`) to `joinPath`
(the model of the `currentPath` accumulation), for keys whose segments are
well formed.  They are needed to reason about a *second* expansion pass over
auto-parent keys, which themselves are joined cleaned prefixes. -/

/-- A key is well formed when its leading segment cleans to a non-empty name
and no segment carries a doubled array suffix (so cleaning a segment never
leaves a trailing `[]`). -/
def wellFormedKey (key : String) : Prop :=
  cleanedAt key 1 ≠ "" ∧ ∀ s ∈ segsOf key, ¬ endsWithBrackets (cleanSeg s) = true

instance (key : String) : Decidable (wellFormedKey key) := by
  unfold wellFormedKey
  infer_instance

theorem splitChars_ne_nil (sep : Char) (l : List Char) : splitChars sep l ≠ [] := by
  induction l with
  | nil => simp [splitChars]
  | cons c rest ih =>
    rw [splitChars]
    by_cases h : c = sep
    · simp [h]
    · simp only [if_neg h]
      cases hr : splitChars sep rest with
      | nil => exact absurd hr ih
      | cons a t => simp

theorem splitChars_no_sep (sep : Char) (l : List Char) :
    ∀ piece ∈ splitChars sep l, sep ∉ piece := by
  induction l with
  | nil =>
    intro piece hp
    simp [splitChars] at hp
    simp [hp]
  | cons c rest ih =>
    intro piece hp
    rw [splitChars] at hp
    by_cases h : c = sep
    · rw [if_pos h] at hp
      rcases List.mem_cons.mp hp with hp | hp
      · simp [hp]
      · exact ih piece hp
    · rw [if_neg h] at hp
      cases hr : splitChars sep rest with
      | nil => exact absurd hr (splitChars_ne_nil sep rest)
      | cons a t =>
        rw [hr] at hp
        rcases List.mem_cons.mp hp with hp | hp
        · subst hp
          intro hmem
          rcases List.mem_cons.mp hmem with hmem | hmem
          · exact h hmem.symm
          · exact ih a (hr ▸ List.mem_cons_self a t) hmem
        · exact ih piece (hr ▸ List.mem_cons.mpr (Or.inr hp))

theorem splitChars_no_sep_eq (sep : Char) (l : List Char) (h : sep ∉ l) :
    splitChars sep l = [l] := by
  induction l with
  | nil => rfl
  | cons c rest ih =>
    rw [splitChars]
    have hc : ¬ c = sep := fun hc => h (hc ▸ List.mem_cons_self c rest)
    rw [if_neg hc, ih (fun hm => h (List.mem_cons.mpr (Or.inr hm)))]

theorem splitChars_append_sep (l₁ l₂ : List Char) (h : '.' ∉ l₁) :
    splitChars '.' (l₁ ++ '.' :: l₂) = l₁ :: splitChars '.' l₂ := by
  induction l₁ with
  | nil => simp [splitChars]
  | cons c cs ih =>
    have hc : ¬ c = '.' := fun hc => h (hc ▸ List.mem_cons_self c cs)
    have hcn : '.' ∉ cs := fun hm => h (List.mem_cons.mpr (Or.inr hm))
    rw [List.cons_append, splitChars, if_neg hc, ih hcn]

/-- The concatenated tail `".c₂.c₃⋯"` produced by folding `joinPath` from a
non-empty accumulator. -/
def dotJoin (ps : List String) : List Char :=
  ps.foldr (fun p r => '.' :: p.data ++ r) []

theorem data_ne_nil_of_ne_empty {s : String} (h : s ≠ "") : s.data ≠ [] := by
  intro hd
  apply h
  cases s with
  | mk d =>
    have hd' : d = [] := hd
    subst hd'
    decide

theorem ne_empty_of_data_ne_nil {s : String} (h : s.data ≠ []) : s ≠ "" := by
  intro he
  subst he
  exact h (by decide)

theorem foldl_joinPath_data (ps : List String) :
    ∀ acc : String, acc ≠ "" → (ps.foldl joinPath acc).data = acc.data ++ dotJoin ps := by
  induction ps with
  | nil => intro acc _; simp [dotJoin]
  | cons p ps' ih =>
    intro acc hacc
    rw [List.foldl_cons]
    have hj : joinPath acc p = acc ++ "." ++ p := if_neg hacc
    have hne : joinPath acc p ≠ "" := by
      rw [hj]
      apply ne_empty_of_data_ne_nil
      show (acc ++ "." ++ p).data ≠ []
      have : (acc ++ "." ++ p).data = acc.data ++ '.' :: p.data := by
        show (acc.data ++ ".".data) ++ p.data = _
        simp
      rw [this]
      simp
    rw [ih (joinPath acc p) hne, hj]
    have hd : (acc ++ "." ++ p).data = acc.data ++ '.' :: p.data := by
      show (acc.data ++ ".".data) ++ p.data = _
      simp
    rw [hd, dotJoin]
    simp [dotJoin]

theorem splitChars_dotJoin (ps : List String) :
    ∀ accd : List Char, (∀ p ∈ ps, '.' ∉ p.data) → '.' ∉ accd →
      splitChars '.' (accd ++ dotJoin ps) = accd :: ps.map (·.data) := by
  induction ps with
  | nil =>
    intro accd _ hacc
    simp [dotJoin, splitChars_no_sep_eq '.' accd hacc]
  | cons p ps' ih =>
    intro accd hps hacc
    have hstep : accd ++ dotJoin (p :: ps') = accd ++ '.' :: (p.data ++ dotJoin ps') := by
      simp [dotJoin]
    rw [hstep, splitChars_append_sep accd _ hacc,
      ih p.data (fun q hq => hps q (List.mem_cons.mpr (Or.inr hq)))
        (hps p (List.mem_cons_self p ps'))]
    rfl

theorem mk_data (s : String) : String.mk s.data = s := rfl

/-- Splitting a `joinPath` fold of dot-free parts recovers the parts. -/
theorem segsOf_foldl_joinPath (c : String) (cs : List String)
    (hc : c ≠ "") (hcd : '.' ∉ c.data) (hcs : ∀ p ∈ cs, '.' ∉ p.data) :
    segsOf (cs.foldl joinPath c) = c :: cs := by
  unfold segsOf
  rw [foldl_joinPath_data cs c hc, splitChars_dotJoin cs c.data hcs hcd]
  have hcomp : (String.mk ∘ fun x : String => x.data) = id := funext fun s => mk_data s
  rw [List.map_cons, List.map_map, mk_data, hcomp, List.map_id]


theorem cleanedAt_zero (key : String) : cleanedAt key 0 = "" := rfl

theorem segsOf_ne_nil (key : String) : segsOf key ≠ [] := by
  unfold segsOf
  intro h
  exact splitChars_ne_nil '.' key.data (List.map_eq_nil_iff.mp h)

theorem cleanedAt_succ (key : String) (j : Nat) (h : j < (segsOf key).length) :
    cleanedAt key (j + 1) =
      joinPath (cleanedAt key j) (cleanSeg ((segsOf key).get ⟨j, h⟩)) := by
  unfold cleanedAt
  rw [← List.take_concat_get' (segsOf key) j h, List.foldl_append]
  rfl

theorem segsOf_no_dot (key : String) : ∀ s ∈ segsOf key, '.' ∉ s.data := by
  intro s hs
  unfold segsOf at hs
  obtain ⟨p, hp, rfl⟩ := List.mem_map.mp hs
  exact splitChars_no_sep '.' key.data p hp

theorem cleanSeg_no_dot {s : String} (h : '.' ∉ s.data) : '.' ∉ (cleanSeg s).data := by
  unfold cleanSeg
  by_cases hb : endsWithBrackets s
  · rw [if_pos hb]
    intro hm
    exact h ((List.dropLast_sublist _).subset ((List.dropLast_sublist _).subset hm))
  · rw [if_neg hb]; exact h

theorem cleanSeg_idem {s : String} (h : ¬ endsWithBrackets (cleanSeg s) = true) :
    cleanSeg (cleanSeg s) = cleanSeg s := by
  unfold cleanSeg at h ⊢
  by_cases hb : endsWithBrackets s
  · rw [if_pos hb] at h ⊢
    rw [if_neg h]
  · rw [if_neg hb] at h ⊢
    rw [if_neg h]

/-- Under wellformedness, the cleaned ancestor path after `j ≥ 1` segments
splits back into exactly the cleaned forms of those `j` segments. -/
theorem segsOf_cleanedAt {key : String} (hwf : wellFormedKey key) {j : Nat}
    (h1 : 1 ≤ j) (h2 : j ≤ (segsOf key).length) :
    segsOf (cleanedAt key j) = ((segsOf key).take j).map cleanSeg := by
  obtain ⟨s₁, rest, hsegs⟩ : ∃ s₁ rest, segsOf key = s₁ :: rest := by
    cases hs : segsOf key with
    | nil => exact absurd hs (segsOf_ne_nil key)
    | cons a t => exact ⟨a, t, rfl⟩
  obtain ⟨j', rfl⟩ : ∃ j', j = j' + 1 := ⟨j - 1, by omega⟩
  have htake : (segsOf key).take (j' + 1) = s₁ :: rest.take j' := by
    rw [hsegs]; rfl
  have hc1 : cleanSeg s₁ ≠ "" := by
    have h1' := hwf.1
    have heq : cleanedAt key 1 = cleanSeg s₁ := by
      unfold cleanedAt
      rw [hsegs]
      show joinPath "" (cleanSeg s₁) = cleanSeg s₁
      exact if_pos rfl
    rwa [heq] at h1' 
  have hfold : cleanedAt key (j' + 1) =
      (rest.take j' |>.map cleanSeg).foldl joinPath (cleanSeg s₁) := by
    unfold cleanedAt
    rw [htake, List.foldl_cons, List.foldl_map]
    have : joinPath "" (cleanSeg s₁) = cleanSeg s₁ := if_pos rfl
    rw [this]
  rw [hfold, htake, List.map_cons]
  refine segsOf_foldl_joinPath (cleanSeg s₁) _ hc1
    (cleanSeg_no_dot (segsOf_no_dot key s₁ (hsegs ▸ List.mem_cons_self s₁ rest))) ?_
  intro p hp
  obtain ⟨s, hs, rfl⟩ := List.mem_map.mp hp
  have hsmem : s ∈ segsOf key := by
    rw [hsegs]
    exact List.mem_cons.mpr (Or.inr (List.mem_of_mem_take hs))
  exact cleanSeg_no_dot (segsOf_no_dot key s hsmem)

/-- Under wellformedness, re-cleaning an ancestor path is the identity on its
own ancestor paths: the `j'`-segment cleaned path of `cleanedAt key j` is
`cleanedAt key j'`. -/
theorem cleanedAt_cleanedAt {key : String} (hwf : wellFormedKey key) {j j' : Nat}
    (h1 : 1 ≤ j) (h2 : j ≤ (segsOf key).length) (h3 : j' ≤ j) :
    cleanedAt (cleanedAt key j) j' = cleanedAt key j' := by
  show ((segsOf (cleanedAt key j)).take j').foldl (fun a s => joinPath a (cleanSeg s)) "" = _
  rw [segsOf_cleanedAt hwf h1 h2, ← List.map_take, List.take_take,
    Nat.min_eq_left h3, List.foldl_map]
  exact List.foldl_ext _ _ ""
    (fun acc s hs =>
      by rw [cleanSeg_idem (hwf.2 s (List.take_subset j' (segsOf key) hs))])

/-- A wellformed key's cleaned ancestor paths are never the empty string (the
`currentPath` truthiness test therefore never restarts mid-walk). -/
theorem cleanedAt_ne_empty {key : String} (hwf : wellFormedKey key) {j : Nat}
    (h1 : 1 ≤ j) (h2 : j ≤ (segsOf key).length) : cleanedAt key j ≠ "" := by
  intro he
  have hs := segsOf_cleanedAt hwf h1 h2
  rw [he] at hs
  have hl := congrArg List.length hs
  simp only [List.length_map, List.length_take] at hl
  have hone : (segsOf "").length = 1 := by decide
  rw [hone] at hl
  have hj1 : j = 1 := by omega
  subst hj1
  exact hwf.1 he

/-- Distinct segment counts give distinct cleaned ancestor paths: the cleaned
path determines how many segments were consumed. -/
theorem cleanedAt_inj {key : String} (hwf : wellFormedKey key) {a b : Nat}
    (ha : 1 ≤ a) (ha' : a ≤ (segsOf key).length)
    (hb : 1 ≤ b) (hb' : b ≤ (segsOf key).length)
    (h : cleanedAt key a = cleanedAt key b) : a = b := by
  have hla := segsOf_cleanedAt hwf ha ha'
  have hlb := segsOf_cleanedAt hwf hb hb'
  have h2 : (segsOf (cleanedAt key a)).length = (segsOf (cleanedAt key b)).length := by
    rw [h]
  rw [hla, hlb] at h2
  simp only [List.length_map, List.length_take] at h2
  omega

/-- `coveredAt` with plain natural-number indices, convenient for induction. -/
def coveredAtN (l : List Field) : Prop :=
  ∀ (i : Nat) (hi : i < l.length) (j : Nat), 0 < j →
    j < (segsOf (l.get ⟨i, hi⟩).key).length →
    ∃ g ∈ l.take i, pathMatches g (cleanedAt (l.get ⟨i, hi⟩).key j)

theorem coveredAt_iff_nat (l : List Field) : coveredAt l ↔ coveredAtN l := by
  constructor
  · intro h i hi j hj hjl
    exact h ⟨i, hi⟩ ⟨j, hjl⟩ hj
  · intro h i j hj
    exact h i.val i.isLt j.val hj j.isLt

/-- Appending one field whose proper ancestor paths are all matched in `l`
preserves the coverage invariant. -/
theorem coveredAtN_append_one {l : List Field} {f : Field}
    (hl : coveredAtN l)
    (hf : ∀ j : Nat, 0 < j → j < (segsOf f.key).length →
        ∃ g ∈ l, pathMatches g (cleanedAt f.key j)) :
    coveredAtN (l ++ [f]) := by
  intro i hi j hj hjl
  by_cases hil : i < l.length
  · have hget : (l ++ [f]).get ⟨i, hi⟩ = l.get ⟨i, hil⟩ := by
      rw [List.get_eq_getElem, List.get_eq_getElem]
      exact List.getElem_append_left ..
    rw [hget] at hjl ⊢
    obtain ⟨g, hg, hm⟩ := hl i hil j hj hjl
    refine ⟨g, ?_, hm⟩
    rw [List.take_append_eq_append_take]
    exact List.mem_append_left _ hg
  · have hv : i = l.length := by
      have := hi
      simp only [List.length_append, List.length_singleton] at this
      omega
    subst hv
    have hget : (l ++ [f]).get ⟨l.length, hi⟩ = f := by simp
    rw [hget] at hjl ⊢
    obtain ⟨g, hg, hm⟩ := hf j hj hjl
    refine ⟨g, ?_, hm⟩
    have ht : (l ++ [f]).take l.length = l := List.take_left ..
    rw [ht]; exact hg

/-- The user-key list `expandFieldListWithParents` computes before its fold. -/
def userKeysOf (fields : List Field) : List String :=
  (fields.filter (fun f => f.key ≠ "")).map (·.key)

theorem mem_userKeysOf_ne_empty {fields : List Field} {p : String}
    (hp : p ∈ userKeysOf fields) : p ≠ "" := by
  obtain ⟨f, hf, rfl⟩ := List.mem_map.mp hp
  exact of_decide_eq_true (List.mem_filter.mp hf).2

theorem userKeysOf_eq_keys {l : List Field} (h : ∀ g ∈ l, g.key ≠ "") :
    userKeysOf l = l.map (·.key) := by
  unfold userKeysOf
  rw [List.filter_eq_self.mpr (fun a ha => decide_eq_true (h a ha))]

/-- Sanity of the auto-parent entries accumulated so far: their keys are
pairwise distinct, recorded in `seen`, and never user keys. -/
def autosOk (u : List String) (st : ExpSt) : Prop :=
  List.Nodup ((st.result.filter (fun g => g.autoParent)).map (·.key)) ∧
  ∀ g ∈ st.result, g.autoParent = true → g.key ∈ st.seen ∧ g.key ∉ u

/-- What one full `ensureParent` walk over `key` guarantees, relating the
starting state `st` to the final state `st'`. -/
def WalkOut (u : List String) (key : String) (st st' : ExpSt) : Prop :=
  (∀ g ∈ st.result, g ∈ st'.result) ∧
  (∀ p ∈ st'.seen, p = cleanedFull key ∨ ∃ g ∈ st'.result, pathMatches g p) ∧
  coveredAtN st'.result ∧
  (∀ j : Nat, 1 ≤ j → j < (segsOf key).length →
      ∃ g ∈ st'.result, pathMatches g (cleanedAt key j)) ∧
  autosOk u st'

/-- The segment walk of `ensureParent`, started after `j₀` segments, preserves
the coverage invariants: matched `seen` entries (save the key's own full path),
covered results, matched walked prefixes, and sane auto entries. -/
theorem ensureParentGo_walk (u : List String) (key : String) (hwf : wellFormedKey key) :
    ∀ (n j₀ : Nat) (st : ExpSt),
      (segsOf key).length = j₀ + n →
      (∀ p ∈ st.seen, p = cleanedFull key ∨ ∃ g ∈ st.result, pathMatches g p) →
      coveredAtN st.result →
      (∀ j : Nat, 1 ≤ j → j ≤ j₀ → j < (segsOf key).length →
          ∃ g ∈ st.result, pathMatches g (cleanedAt key j)) →
      (∀ j : Nat, j₀ ≤ j → j + 1 < (segsOf key).length → cleanedAt key (j + 1) ∈ u →
          ∃ g ∈ st.result, g.key = cleanedAt key (j + 1)) →
      autosOk u st →
      WalkOut u key st
        (ensureParentGo u ((segsOf key).drop j₀) (cleanedAt key j₀) st) := by
  intro n
  induction n with
  | zero =>
    intro j₀ st hm hseen hcov hpref hu hautos
    have hj : j₀ = (segsOf key).length := by omega
    subst hj
    rw [List.drop_length]
    exact ⟨fun g hg => hg, hseen, hcov,
      fun j h1 h2 => hpref j h1 (by omega) h2, hautos⟩
  | succ k IH =>
    intro j₀ st hm hseen hcov hpref hu hautos
    have hj₀ : j₀ < (segsOf key).length := by omega
    have hdrop : (segsOf key).drop j₀ =
        (segsOf key).get ⟨j₀, hj₀⟩ :: (segsOf key).drop (j₀ + 1) := by
      rw [List.get_eq_getElem]; exact List.drop_eq_getElem_cons hj₀
    rw [hdrop, ensureParentGo]
    rw [show (if endsWithBrackets ((segsOf key).get ⟨j₀, hj₀⟩) then
          dropBrackets ((segsOf key).get ⟨j₀, hj₀⟩)
        else (segsOf key).get ⟨j₀, hj₀⟩) = cleanSeg ((segsOf key).get ⟨j₀, hj₀⟩) from rfl,
      ← cleanedAt_succ key j₀ hj₀]
    by_cases h1 : cleanedAt key (j₀ + 1) ∈ u
    · rw [if_pos h1]
      refine IH (j₀ + 1) st (by omega) hseen hcov ?_ (fun j hj h2 => hu j (by omega) h2) hautos
      intro j hj1 hj2 hj3
      rcases Nat.lt_or_ge j (j₀ + 1) with hc | hc
      · exact hpref j hj1 (by omega) hj3
      · have hje : j = j₀ + 1 := by omega
        subst hje
        obtain ⟨g, hg, hk⟩ := hu j₀ (Nat.le_refl _) hj3 h1
        exact ⟨g, hg, Or.inl hk⟩
    · rw [if_neg h1]
      by_cases h2 : cleanedAt key (j₀ + 1) ∈ st.seen
      · rw [if_pos h2]
        refine IH (j₀ + 1) st (by omega) hseen hcov ?_ (fun j hj hl => hu j (by omega) hl) hautos
        intro j hj1 hj2 hj3
        rcases Nat.lt_or_ge j (j₀ + 1) with hc | hc
        · exact hpref j hj1 (by omega) hj3
        · have hje : j = j₀ + 1 := by omega
          subst hje
          rcases hseen _ h2 with he | ⟨g, hg, hmm⟩
          · have hfe : cleanedFull key = cleanedAt key ((segsOf key).length) := rfl
            rw [hfe] at he
            have := cleanedAt_inj hwf (by omega) (by omega)
              (by omega : 1 ≤ (segsOf key).length) (Nat.le_refl _) he
            omega
          · exact ⟨g, hg, hmm⟩
      · rw [if_neg h2]
        by_cases h3 : ((segsOf key).drop (j₀ + 1)).isEmpty
        · rw [if_pos h3]
          have hlen : j₀ + 1 = (segsOf key).length := by
            have he := List.isEmpty_iff.mp h3
            have hl := congrArg List.length he
            rw [List.length_drop] at hl
            simp only [List.length_nil] at hl
            omega
          have hfull : cleanedAt key (j₀ + 1) = cleanedFull key := by
            rw [hlen]; rfl
          refine IH (j₀ + 1) { st with seen := cleanedAt key (j₀ + 1) :: st.seen }
            (by omega) ?_ hcov ?_ (fun j hj hl => hu j (by omega) hl) ?_
          · intro p hp
            rcases List.mem_cons.mp hp with hp | hp
            · exact Or.inl (hp.trans hfull)
            · exact hseen p hp
          · intro j hj1 hj2 hj3
            exact hpref j hj1 (by omega) hj3
          · exact ⟨hautos.1, fun g hg ha =>
              ⟨List.mem_cons_of_mem _ (hautos.2 g hg ha).1, (hautos.2 g hg ha).2⟩⟩
        · rw [if_neg h3]
          have hlt : j₀ + 1 < (segsOf key).length := by
            have hne : (segsOf key).drop (j₀ + 1) ≠ [] := by
              intro hh; rw [hh] at h3; exact h3 rfl
            have hp := List.length_pos.mpr hne
            rw [List.length_drop] at hp
            omega
          have hAkey : (mkAuto (cleanedAt key (j₀ + 1))
              (endsWithBrackets ((segsOf key).get ⟨j₀, hj₀⟩))).key
                = cleanedAt key (j₀ + 1) := rfl
          have hAauto : (mkAuto (cleanedAt key (j₀ + 1))
              (endsWithBrackets ((segsOf key).get ⟨j₀, hj₀⟩))).autoParent = true := rfl
          have hmem : mkAuto (cleanedAt key (j₀ + 1))
              (endsWithBrackets ((segsOf key).get ⟨j₀, hj₀⟩)) ∈
              st.result ++ [mkAuto (cleanedAt key (j₀ + 1))
                (endsWithBrackets ((segsOf key).get ⟨j₀, hj₀⟩))] :=
            List.mem_append_right _ (List.mem_singleton.mpr rfl)
          have hstep := IH (j₀ + 1)
            { seen := cleanedAt key (j₀ + 1) :: st.seen,
              result := st.result ++ [mkAuto (cleanedAt key (j₀ + 1))
                (endsWithBrackets ((segsOf key).get ⟨j₀, hj₀⟩))] }
            (by omega) ?_ ?_ ?_ ?_ ?_
          · exact ⟨fun g hg => hstep.1 g (List.mem_append_left _ hg),
              hstep.2.1, hstep.2.2.1, hstep.2.2.2.1, hstep.2.2.2.2⟩
          · intro p hp
            rcases List.mem_cons.mp hp with hp | hp
            · exact Or.inr ⟨_, hmem, Or.inl (hAkey.trans hp.symm)⟩
            · rcases hseen p hp with he | ⟨g, hg, hmm⟩
              · exact Or.inl he
              · exact Or.inr ⟨g, List.mem_append_left _ hg, hmm⟩
          · refine coveredAtN_append_one hcov ?_
            intro jj hjj hjjl
            rw [hAkey] at hjjl
            have hsg := segsOf_cleanedAt hwf (by omega : 1 ≤ j₀ + 1) (by omega)
            rw [hsg] at hjjl
            simp only [List.length_map, List.length_take] at hjjl
            have hjjb : jj < j₀ + 1 := by omega
            rw [hAkey, cleanedAt_cleanedAt hwf (by omega) (by omega) (by omega)]
            exact hpref jj (by omega) (by omega) (by omega)
          · intro j hj1 hj2 hj3
            rcases Nat.lt_or_ge j (j₀ + 1) with hc | hc
            · obtain ⟨g, hg, hmm⟩ := hpref j hj1 (by omega) hj3
              exact ⟨g, List.mem_append_left _ hg, hmm⟩
            · have hje : j = j₀ + 1 := by omega
              subst hje
              exact ⟨_, hmem, Or.inl hAkey⟩
          · intro j hj hl hmem'
            obtain ⟨g, hg, hk⟩ := hu j (by omega) hl hmem'
            exact ⟨g, List.mem_append_left _ hg, hk⟩
          · constructor
            · rw [List.filter_append]
              have hfs : [mkAuto (cleanedAt key (j₀ + 1))
                  (endsWithBrackets ((segsOf key).get ⟨j₀, hj₀⟩))].filter
                    (fun g => g.autoParent)
                  = [mkAuto (cleanedAt key (j₀ + 1))
                      (endsWithBrackets ((segsOf key).get ⟨j₀, hj₀⟩))] := rfl
              rw [hfs, List.map_append]
              rw [List.nodup_append]
              refine ⟨hautos.1, List.nodup_singleton _, ?_⟩
              intro a ha hb
              have ha' : a ∈ (List.filter (fun g => g.autoParent) st.result).map (·.key) := ha
              obtain ⟨g, hgf, rfl⟩ := List.mem_map.mp ha'
              have hgr := List.mem_of_mem_filter hgf
              have hga := List.of_mem_filter hgf
              have hseen1 := (hautos.2 g hgr hga).1
              have hb' : g.key = cleanedAt key (j₀ + 1) := List.mem_singleton.mp hb
              rw [hb'] at hseen1
              exact h2 hseen1
            · intro g hg ha
              rcases List.mem_append.mp hg with hg | hg
              · exact ⟨List.mem_cons_of_mem _ (hautos.2 g hg ha).1, (hautos.2 g hg ha).2⟩
              · rcases List.mem_singleton.mp hg with rfl
                exact ⟨by rw [hAkey]; exact List.mem_cons_self _ _, by rw [hAkey]; exact h1⟩

/-- `ensureParent` on a fresh key: the whole walk from the empty path. -/
theorem ensureParent_walk (u : List String) (key : String) (st : ExpSt)
    (hwf : wellFormedKey key)
    (hseen : ∀ p ∈ st.seen, p = cleanedFull key ∨ ∃ g ∈ st.result, pathMatches g p)
    (hcov : coveredAtN st.result)
    (hu : ∀ j : Nat, j + 1 < (segsOf key).length → cleanedAt key (j + 1) ∈ u →
        ∃ g ∈ st.result, g.key = cleanedAt key (j + 1))
    (hautos : autosOk u st) :
    WalkOut u key st (ensureParent u key st) :=
  ensureParentGo_walk u key hwf (segsOf key).length 0 st (by omega)
    hseen hcov (by intro j h1 h2 _; omega) (fun j _ h2 hm => hu j h2 hm) hautos

/-- The fold invariant for the coverage proof: all `seen` entries matched in
the result, result covered, every processed user field present with its raw
key, and sane auto entries. -/
def ExpandInv (fields : List Field) (k : Nat) (st : ExpSt) : Prop :=
  (∀ p ∈ st.seen, ∃ g ∈ st.result, pathMatches g p) ∧
  coveredAtN st.result ∧
  (∀ i : Fin fields.length, i.val < k → (fields.get i).key ≠ "" →
      ∃ g ∈ st.result, g.key = (fields.get i).key) ∧
  autosOk (userKeysOf fields) st

/-- One expansion step preserves the coverage invariant, given the
parents-declared-first discipline and wellformed keys. -/
theorem expandStep_inv (fields : List Field) (k : Nat) (hk : k < fields.length)
    (h0 : ∀ f ∈ fields, f.autoParent = false)
    (h1 : parentsDeclaredFirst fields)
    (hw : ∀ f ∈ fields, f.key ≠ "" → wellFormedKey f.key)
    (st : ExpSt) (hinv : ExpandInv fields k st) :
    ExpandInv fields (k + 1)
      (expandStep (userKeysOf fields) st (fields.get ⟨k, hk⟩)) := by
  obtain ⟨hseen, hcov, hdone, hautos⟩ := hinv
  by_cases hkey : (fields.get ⟨k, hk⟩).key = ""
  · rw [expandStep, if_pos hkey]
    refine ⟨hseen, hcov, ?_, hautos⟩
    intro i hi hki
    rcases Nat.lt_or_ge i.val k with hc | hc
    · exact hdone i hc hki
    · have hie : i = ⟨k, hk⟩ := Fin.ext (show i.val = k by omega)
      rw [hie] at hki
      exact absurd hkey hki
  · have hwf := hw _ (List.get_mem fields k hk) hkey
    have hWu : ∀ j : Nat, j + 1 < (segsOf (fields.get ⟨k, hk⟩).key).length →
        cleanedAt (fields.get ⟨k, hk⟩).key (j + 1) ∈ userKeysOf fields →
        ∃ g ∈ st.result, g.key = cleanedAt (fields.get ⟨k, hk⟩).key (j + 1) := by
      intro j hj hmem
      obtain ⟨i', hi', heq⟩ := h1 ⟨k, hk⟩ ⟨j + 1, hj⟩ (Nat.succ_pos j) hmem
      obtain ⟨g, hg, hgk⟩ := hdone i' hi'
        (by rw [heq]; exact mem_userKeysOf_ne_empty hmem)
      exact ⟨g, hg, hgk.trans heq⟩
    obtain ⟨hmono, hseen', hcov', hpref', hautos'⟩ :=
      ensureParent_walk (userKeysOf fields) (fields.get ⟨k, hk⟩).key st hwf
        (fun p hp => Or.inr (hseen p hp)) hcov hWu hautos
    have hfmem : fields.get ⟨k, hk⟩ ∈
        (ensureParent (userKeysOf fields) (fields.get ⟨k, hk⟩).key st).result
          ++ [fields.get ⟨k, hk⟩] :=
      List.mem_append_right _ (List.mem_singleton.mpr rfl)
    have hA : ∀ p ∈ (ensureParent (userKeysOf fields) (fields.get ⟨k, hk⟩).key st).seen,
        ∃ g ∈ (ensureParent (userKeysOf fields) (fields.get ⟨k, hk⟩).key st).result
          ++ [fields.get ⟨k, hk⟩], pathMatches g p := by
      intro p hp
      rcases hseen' p hp with he | ⟨g, hg, hmm⟩
      · exact ⟨_, hfmem, Or.inr he.symm⟩
      · exact ⟨g, List.mem_append_left _ hg, hmm⟩
    have hB : coveredAtN
        ((ensureParent (userKeysOf fields) (fields.get ⟨k, hk⟩).key st).result
          ++ [fields.get ⟨k, hk⟩]) := by
      refine coveredAtN_append_one hcov' ?_
      intro j hj hjl
      exact hpref' j (by omega) hjl
    have hC : ∀ i : Fin fields.length, i.val < k + 1 → (fields.get i).key ≠ "" →
        ∃ g ∈ (ensureParent (userKeysOf fields) (fields.get ⟨k, hk⟩).key st).result
          ++ [fields.get ⟨k, hk⟩], g.key = (fields.get i).key := by
      intro i hi hki
      rcases Nat.lt_or_ge i.val k with hc | hc
      · obtain ⟨g, hg, hgk⟩ := hdone i hc hki
        exact ⟨g, List.mem_append_left _ (hmono g hg), hgk⟩
      · have hie : i = ⟨k, hk⟩ := Fin.ext (show i.val = k by omega)
        rw [hie]
        exact ⟨_, hfmem, rfl⟩
    have hff : (fields.get ⟨k, hk⟩).autoParent = false := h0 _ (List.get_mem fields k hk)
    have hDn : List.Nodup
        ((((ensureParent (userKeysOf fields) (fields.get ⟨k, hk⟩).key st).result
          ++ [fields.get ⟨k, hk⟩]).filter (fun g => g.autoParent)).map (·.key)) := by
      rw [List.filter_append]
      have hfs : [fields.get ⟨k, hk⟩].filter (fun g => g.autoParent) = [] := by
        have hff' : fields[k].autoParent = false := hff
        simp [hff, hff']
      rw [hfs, List.append_nil]
      exact hautos'.1
    rw [expandStep, if_neg hkey]
    by_cases hks : (fields.get ⟨k, hk⟩).key ∈
        (ensureParent (userKeysOf fields) (fields.get ⟨k, hk⟩).key st).seen
    · rw [if_pos hks]
      refine ⟨hA, hB, hC, hDn, ?_⟩
      intro g hg ha
      rcases List.mem_append.mp hg with hg | hg
      · exact hautos'.2 g hg ha
      · rcases List.mem_singleton.mp hg with rfl
        rw [hff] at ha
        exact absurd ha (by decide)
    · rw [if_neg hks]
      refine ⟨?_, hB, hC, hDn, ?_⟩
      · intro p hp
        rcases List.mem_cons.mp hp with hp | hp
        · exact ⟨_, hfmem, Or.inl hp.symm⟩
        · exact hA p hp
      · intro g hg ha
        rcases List.mem_append.mp hg with hg | hg
        · exact ⟨List.mem_cons_of_mem _ (hautos'.2 g hg ha).1, (hautos'.2 g hg ha).2⟩
        · rcases List.mem_singleton.mp hg with rfl
          rw [hff] at ha
          exact absurd ha (by decide)

/-- The expansion fold preserves the coverage invariant to the end. -/
theorem expandFold_cov (fields : List Field)
    (h0 : ∀ f ∈ fields, f.autoParent = false)
    (h1 : parentsDeclaredFirst fields)
    (hw : ∀ f ∈ fields, f.key ≠ "" → wellFormedKey f.key) :
    ∀ (l : List Field) (k : Nat) (st : ExpSt),
      fields.drop k = l → ExpandInv fields k st →
      ExpandInv fields fields.length
        (l.foldl (expandStep (userKeysOf fields)) st) := by
  intro l
  induction l with
  | nil =>
    intro k st hd hinv
    rw [List.foldl_nil]
    have hk : fields.length ≤ k := by
      by_contra hc
      push_neg at hc
      rw [List.drop_eq_getElem_cons hc] at hd
      exact absurd hd (List.cons_ne_nil _ _)
    exact ⟨hinv.1, hinv.2.1, fun i hi => hinv.2.2.1 i (by omega), hinv.2.2.2⟩
  | cons f l' ih =>
    intro k st hd hinv
    have hk : k < fields.length := by
      by_contra hc
      push_neg at hc
      rw [List.drop_eq_nil_of_le hc] at hd
      exact absurd hd.symm (List.cons_ne_nil _ _)
    have hd2 : fields.drop k = (fields.get ⟨k, hk⟩) :: fields.drop (k + 1) := by
      rw [List.get_eq_getElem]; exact List.drop_eq_getElem_cons hk
    rw [hd] at hd2
    injection hd2 with hf hl'
    rw [List.foldl_cons, hf]
    exact ih (k + 1) _ hl'.symm (expandStep_inv fields k hk h0 h1 hw st hinv)

/-- **C3** (corrected).  For every input field list whose fields are
user-declared (no pre-set auto-parent markers), in which any field whose key
equals a proper cleaned ancestor path of another field's key is declared
before that field, and whose non-empty keys are wellformed (leading segment
cleans to a non-empty name and no doubled array suffixes), the output of
`expandFieldListWithParents` satisfies the invariant: every proper cleaned
ancestor path of each output field's path appears *earlier* in the output as
some field's path (raw or cleaned), and the inserted auto-parent ancestor
entries have pairwise-distinct paths, none of which duplicates a user key. -/
theorem C3_ancestor_coverage (fields : List Field)
    (h0 : ∀ f ∈ fields, f.autoParent = false)
    (h1 : parentsDeclaredFirst fields)
    (hw : ∀ f ∈ fields, f.key ≠ "" → wellFormedKey f.key) :
    coveredAt (expandFieldListWithParents fields) ∧
    List.Nodup (((expandFieldListWithParents fields).filter
        (fun g => g.autoParent)).map (·.key)) ∧
    ∀ g ∈ expandFieldListWithParents fields, g.autoParent = true →
      g.key ∉ userKeysOf fields := by
  have h := expandFold_cov fields h0 h1 hw fields 0 ⟨[], []⟩ rfl
    ⟨by intro p hp; exact absurd hp (List.not_mem_nil p),
     by intro i hi; exact absurd hi (by simp),
     by intro i hi; exact absurd hi (by omega),
     by simp [autosOk]⟩
  refine ⟨?_, h.2.2.2.1, fun g hg ha => (h.2.2.2.2 g hg ha).2⟩
  rw [coveredAt_iff_nat]
  exact h.2.1

/-- Witness for C3 at the concrete wellformed, parent-first input
`[{key:"a"}, {key:"a.b[]"}, {key:"a.b[].c"}]`. -/
theorem C3_witness :
    (∀ f ∈ [keyField "a", keyField "a.b[]", keyField "a.b[].c"],
        f.autoParent = false) ∧
    parentsDeclaredFirst [keyField "a", keyField "a.b[]", keyField "a.b[].c"] ∧
    (∀ f ∈ [keyField "a", keyField "a.b[]", keyField "a.b[].c"],
        f.key ≠ "" → wellFormedKey f.key) ∧
    (coveredAt (expandFieldListWithParents
        [keyField "a", keyField "a.b[]", keyField "a.b[].c"]) ∧
      List.Nodup (((expandFieldListWithParents
          [keyField "a", keyField "a.b[]", keyField "a.b[].c"]).filter
            (fun g => g.autoParent)).map (·.key)) ∧
      ∀ g ∈ expandFieldListWithParents
          [keyField "a", keyField "a.b[]", keyField "a.b[].c"],
        g.autoParent = true →
          g.key ∉ userKeysOf [keyField "a", keyField "a.b[]", keyField "a.b[].c"]) :=
  ⟨by decide, by decide, by decide,
    C3_ancestor_coverage [keyField "a", keyField "a.b[]", keyField "a.b[].c"]
      (by decide) (by decide) (by decide)⟩

/-! ## Claim C5 — idempotence of the expansion -/

/-- Counterexample to C5 as stated: the key `".b.c"` (leading dot, as JS
`split('.')` happily produces an empty first segment) expands to
`[auto "", auto "b", field]`, but the auto-parent with key `""` is dropped by
the second pass's falsy-key filter while `""` is re-pushed later during the
walk of `".b.c"` — the re-expansion is `[auto "b", auto "", field]`, a
different order. -/
theorem C5_counterexample :
    expandFieldListWithParents (expandFieldListWithParents [keyField ".b.c"])
      ≠ expandFieldListWithParents [keyField ".b.c"] :=
  fun h => absurd (congrArg (List.map (fun g => g.key)) h) (by decide)

/-- Every proper cleaned ancestor path of each entry is anchored: it is a user
key, some entry's raw key, or a cleaned ancestor path of an *earlier* entry. -/
def PrefixAnchored (u : List String) (l : List Field) : Prop :=
  ∀ (i : Nat) (hi : i < l.length) (j : Nat), 1 ≤ j →
    j < (segsOf (l.get ⟨i, hi⟩).key).length →
    cleanedAt (l.get ⟨i, hi⟩).key j ∈ u ∨
    cleanedAt (l.get ⟨i, hi⟩).key j ∈ l.map (·.key) ∨
    ∃ g ∈ l.take i, ∃ j', 1 ≤ j' ∧ j' ≤ (segsOf g.key).length ∧
      cleanedAt (l.get ⟨i, hi⟩).key j = cleanedAt g.key j'

theorem PrefixAnchored_append_one {u : List String} {l : List Field} {f : Field}
    (hl : PrefixAnchored u l)
    (hf : ∀ j : Nat, 1 ≤ j → j < (segsOf f.key).length →
        cleanedAt f.key j ∈ u ∨ cleanedAt f.key j ∈ (l ++ [f]).map (·.key) ∨
        ∃ g ∈ l, ∃ j', 1 ≤ j' ∧ j' ≤ (segsOf g.key).length ∧
          cleanedAt f.key j = cleanedAt g.key j') :
    PrefixAnchored u (l ++ [f]) := by
  intro i hi j hj hjl
  by_cases hil : i < l.length
  · have hget : (l ++ [f]).get ⟨i, hi⟩ = l.get ⟨i, hil⟩ := by
      rw [List.get_eq_getElem, List.get_eq_getElem]
      exact List.getElem_append_left ..
    rw [hget] at hjl ⊢
    rcases hl i hil j hj hjl with hc | hc | ⟨g, hg, j', hj1, hj2, he⟩
    · exact Or.inl hc
    · refine Or.inr (Or.inl ?_)
      rw [List.map_append]
      exact List.mem_append_left _ hc
    · refine Or.inr (Or.inr ⟨g, ?_, j', hj1, hj2, he⟩)
      rw [List.take_append_eq_append_take]
      exact List.mem_append_left _ hg
  · have hv : i = l.length := by
      have := hi
      simp only [List.length_append, List.length_singleton] at this
      omega
    subst hv
    have hget : (l ++ [f]).get ⟨l.length, hi⟩ = f := by simp
    rw [hget] at hjl ⊢
    rcases hf j hj hjl with hc | hc | ⟨g, hg, j', hj1, hj2, he⟩
    · exact Or.inl hc
    · exact Or.inr (Or.inl hc)
    · refine Or.inr (Or.inr ⟨g, ?_, j', hj1, hj2, he⟩)
      have ht : (l ++ [f]).take l.length = l := List.take_left ..
      rw [ht]; exact hg

/-- The tail of one expansion step for a truthy key: the field is appended to
the walk's result, the walk's `seen` persists, and any new `seen` entry is the
field's own raw key. -/
theorem expandStep_parts (u : List String) (st : ExpSt) (f : Field)
    (hk : f.key ≠ "") :
    (expandStep u st f).result = (ensureParent u f.key st).result ++ [f] ∧
    (∀ p ∈ (ensureParent u f.key st).seen, p ∈ (expandStep u st f).seen) ∧
    (∀ p ∈ (expandStep u st f).seen,
        p = f.key ∨ p ∈ (ensureParent u f.key st).seen) := by
  rw [expandStep, if_neg hk]
  by_cases h : f.key ∈ (ensureParent u f.key st).seen
  · rw [if_pos h]
    exact ⟨rfl, fun p hp => hp, fun p hp => Or.inr hp⟩
  · rw [if_neg h]
    exact ⟨rfl, fun p hp => List.mem_cons_of_mem _ hp, fun p hp => List.mem_cons.mp hp⟩

/-- When every proper cleaned ancestor path of `key` ahead of the walk is a
user key or already seen, the walk pushes nothing, only grows `seen`, and
afterwards every cleaned ancestor path of `key` (the full one included) is a
user key or seen. -/
theorem ensureParentGo_nopush (u : List String) (key : String) :
    ∀ (n j₀ : Nat) (st : ExpSt),
      (segsOf key).length = j₀ + n →
      (∀ j : Nat, j₀ ≤ j → j + 1 < (segsOf key).length →
          cleanedAt key (j + 1) ∈ u ∨ cleanedAt key (j + 1) ∈ st.seen) →
      (ensureParentGo u ((segsOf key).drop j₀) (cleanedAt key j₀) st).result
          = st.result ∧
      (∀ p ∈ st.seen,
          p ∈ (ensureParentGo u ((segsOf key).drop j₀) (cleanedAt key j₀) st).seen) ∧
      (∀ j : Nat, j₀ < j → j ≤ (segsOf key).length →
          cleanedAt key j ∈ u ∨
          cleanedAt key j ∈
            (ensureParentGo u ((segsOf key).drop j₀) (cleanedAt key j₀) st).seen) := by
  intro n
  induction n with
  | zero =>
    intro j₀ st hm hH
    have hj : j₀ = (segsOf key).length := by omega
    subst hj
    rw [List.drop_length]
    exact ⟨rfl, fun p hp => hp, fun j h1 h2 => absurd h1 (by omega)⟩
  | succ k IH =>
    intro j₀ st hm hH
    have hj₀ : j₀ < (segsOf key).length := by omega
    have hdrop : (segsOf key).drop j₀ =
        (segsOf key).get ⟨j₀, hj₀⟩ :: (segsOf key).drop (j₀ + 1) := by
      rw [List.get_eq_getElem]; exact List.drop_eq_getElem_cons hj₀
    rw [hdrop, ensureParentGo]
    rw [show (if endsWithBrackets ((segsOf key).get ⟨j₀, hj₀⟩) then
          dropBrackets ((segsOf key).get ⟨j₀, hj₀⟩)
        else (segsOf key).get ⟨j₀, hj₀⟩) = cleanSeg ((segsOf key).get ⟨j₀, hj₀⟩) from rfl,
      ← cleanedAt_succ key j₀ hj₀]
    by_cases h1 : cleanedAt key (j₀ + 1) ∈ u
    · rw [if_pos h1]
      obtain ⟨hres, hmono, hall⟩ := IH (j₀ + 1) st (by omega)
        (fun j hj hl => hH j (by omega) hl)
      refine ⟨hres, hmono, ?_⟩
      intro j hja hjb
      rcases Nat.lt_or_ge (j₀ + 1) j with hc | hc
      · exact hall j hc hjb
      · have : j = j₀ + 1 := by omega
        subst this
        exact Or.inl h1
    · rw [if_neg h1]
      by_cases h2 : cleanedAt key (j₀ + 1) ∈ st.seen
      · rw [if_pos h2]
        obtain ⟨hres, hmono, hall⟩ := IH (j₀ + 1) st (by omega)
          (fun j hj hl => hH j (by omega) hl)
        refine ⟨hres, hmono, ?_⟩
        intro j hja hjb
        rcases Nat.lt_or_ge (j₀ + 1) j with hc | hc
        · exact hall j hc hjb
        · have : j = j₀ + 1 := by omega
          subst this
          exact Or.inr (hmono _ h2)
      · rw [if_neg h2]
        by_cases h3 : ((segsOf key).drop (j₀ + 1)).isEmpty
        · rw [if_pos h3]
          have hlen : j₀ + 1 = (segsOf key).length := by
            have he := List.isEmpty_iff.mp h3
            have hl := congrArg List.length he
            rw [List.length_drop] at hl
            simp only [List.length_nil] at hl
            omega
          obtain ⟨hres, hmono, hall⟩ := IH (j₀ + 1)
            { st with seen := cleanedAt key (j₀ + 1) :: st.seen } (by omega)
            (by intro j hj hl; omega)
          refine ⟨hres, fun p hp => hmono p (List.mem_cons_of_mem _ hp), ?_⟩
          intro j hja hjb
          have : j = j₀ + 1 := by omega
          subst this
          exact Or.inr (hmono _ (List.mem_cons_self _ _))
        · rw [if_neg h3]
          have hlt : j₀ + 1 < (segsOf key).length := by
            have hne : (segsOf key).drop (j₀ + 1) ≠ [] := by
              intro hh; rw [hh] at h3; exact h3 rfl
            have hp := List.length_pos.mpr hne
            rw [List.length_drop] at hp
            omega
          rcases hH j₀ (Nat.le_refl _) hlt with hc | hc
          · exact absurd hc h1
          · exact absurd hc h2

/-- A list every entry of which has a truthy, anchored key is a fixed point
of the expansion fold. -/
theorem expandFold_nopush (l : List Field) (u₀ : List String)
    (hne : ∀ g ∈ l, g.key ≠ "")
    (hsub : ∀ p ∈ u₀, p ∈ l.map (·.key))
    (hanch : PrefixAnchored u₀ l) :
    ∀ (todo : List Field) (k : Nat) (st : ExpSt),
      l.drop k = todo →
      st.result = l.take k →
      (∀ (i : Nat) (hi : i < l.length), i < k → ∀ j : Nat, 1 ≤ j →
          j ≤ (segsOf (l.get ⟨i, hi⟩).key).length →
          cleanedAt (l.get ⟨i, hi⟩).key j ∈ l.map (·.key) ∨
          cleanedAt (l.get ⟨i, hi⟩).key j ∈ st.seen) →
      (todo.foldl (expandStep (userKeysOf l)) st).result = l := by
  have hukeys : userKeysOf l = l.map (·.key) := userKeysOf_eq_keys hne
  intro todo
  induction todo with
  | nil =>
    intro k st hd hres _
    rw [List.foldl_nil, hres]
    have hk : l.length ≤ k := by
      by_contra hc
      push_neg at hc
      rw [List.drop_eq_getElem_cons hc] at hd
      exact absurd hd (List.cons_ne_nil _ _)
    exact List.take_of_length_le hk
  | cons f todo' ih =>
    intro k st hd hres hP
    have hk : k < l.length := by
      by_contra hc
      push_neg at hc
      rw [List.drop_eq_nil_of_le hc] at hd
      exact absurd hd.symm (List.cons_ne_nil _ _)
    have hd2 : l.drop k = (l.get ⟨k, hk⟩) :: l.drop (k + 1) := by
      rw [List.get_eq_getElem]; exact List.drop_eq_getElem_cons hk
    rw [hd] at hd2
    injection hd2 with hf hl'
    have hkey : (l.get ⟨k, hk⟩).key ≠ "" := hne _ (List.get_mem l k hk)
    -- prefixes of the current key are user keys or already seen
    have hH : ∀ j : Nat, 0 ≤ j → j + 1 < (segsOf (l.get ⟨k, hk⟩).key).length →
        cleanedAt (l.get ⟨k, hk⟩).key (j + 1) ∈ userKeysOf l ∨
        cleanedAt (l.get ⟨k, hk⟩).key (j + 1) ∈ st.seen := by
      intro j _ hj
      rcases hanch k hk (j + 1) (by omega) hj with hc | hc | ⟨g, hg, j', hj1, hj2, he⟩
      · exact Or.inl (by rw [hukeys]; exact hsub _ hc)
      · exact Or.inl (by rw [hukeys]; exact hc)
      · obtain ⟨i', hi'l, hi'k, hgi⟩ : ∃ i', ∃ hi'l : i' < l.length, i' < k ∧
            l.get ⟨i', hi'l⟩ = g := by
          obtain ⟨i', hi', hgg⟩ := List.getElem_of_mem (List.mem_of_mem_take hg)
          obtain ⟨i'', hlt, hgg2⟩ := List.mem_take_iff_getElem.mp hg
          exact ⟨i'', by omega, by omega, by
            rw [List.get_eq_getElem]; exact hgg2⟩
        rcases hP i' hi'l hi'k j' hj1 (by rw [hgi]; exact hj2) with hc | hc
        · rw [hgi] at hc
          exact Or.inl (by rw [hukeys]; rw [he]; exact hc)
        · rw [hgi] at hc
          rw [he]
          exact Or.inr hc
    have hwalk := ensureParentGo_nopush (userKeysOf l) (l.get ⟨k, hk⟩).key
      ((segsOf (l.get ⟨k, hk⟩).key).length) 0 st (by omega) (fun j hj hl => hH j hj hl)
    have hwalk' : (ensureParent (userKeysOf l) (l.get ⟨k, hk⟩).key st).result
          = st.result ∧
        (∀ p ∈ st.seen,
            p ∈ (ensureParent (userKeysOf l) (l.get ⟨k, hk⟩).key st).seen) ∧
        (∀ j : Nat, 0 < j → j ≤ (segsOf (l.get ⟨k, hk⟩).key).length →
            cleanedAt (l.get ⟨k, hk⟩).key j ∈ userKeysOf l ∨
            cleanedAt (l.get ⟨k, hk⟩).key j ∈
              (ensureParent (userKeysOf l) (l.get ⟨k, hk⟩).key st).seen) := hwalk
    obtain ⟨hres1, hmono1, hall1⟩ := hwalk'
    obtain ⟨hstep_res, hstep_mono, _⟩ :=
      expandStep_parts (userKeysOf l) st (l.get ⟨k, hk⟩) hkey
    rw [List.foldl_cons, hf]
    refine ih (k + 1) _ hl'.symm ?_ ?_
    · rw [hstep_res, hres1, hres]
      rw [List.get_eq_getElem]
      exact List.take_concat_get' l k hk
    · intro i hi hik j hj1 hj2
      rcases Nat.lt_or_ge i k with hc | hc
      · rcases hP i hi hc j hj1 hj2 with hx | hx
        · exact Or.inl hx
        · exact Or.inr (hstep_mono _ (hmono1 _ hx))
      · have hik' : i = k := by omega
        subst hik'
        have hieq : (⟨i, hi⟩ : Fin l.length) = ⟨i, hk⟩ := rfl
        rcases hall1 j (by omega) hj2 with hx | hx
        · exact Or.inl (by rw [← hukeys]; exact hx)
        · exact Or.inr (hstep_mono _ hx)

/-- What one `ensureParent` walk guarantees for the anchoring analysis: the
result grows only by cleaned ancestor paths of `key`, stays anchored, and all
`seen` entries are user keys, cleaned ancestor paths of result entries, or
cleaned ancestor paths of `key` itself. -/
def AnchorOut (u : List String) (key : String) (st st' : ExpSt) : Prop :=
  (∀ g ∈ st.result, g ∈ st'.result) ∧
  (∀ g ∈ st'.result, g ∈ st.result ∨
      ∃ jj, 1 ≤ jj ∧ jj < (segsOf key).length ∧ g.key = cleanedAt key jj) ∧
  PrefixAnchored u st'.result ∧
  (∀ p ∈ st'.seen, p ∈ u ∨
      (∃ g ∈ st'.result, ∃ j', 1 ≤ j' ∧ j' ≤ (segsOf g.key).length ∧
        p = cleanedAt g.key j') ∨
      (∃ j', 1 ≤ j' ∧ j' ≤ (segsOf key).length ∧ p = cleanedAt key j')) ∧
  (∀ j' : Nat, 1 ≤ j' → j' < (segsOf key).length →
      cleanedAt key j' ∈ u ∨ cleanedAt key j' ∈ st'.result.map (·.key) ∨
      ∃ g ∈ st'.result, ∃ j'', 1 ≤ j'' ∧ j'' ≤ (segsOf g.key).length ∧
        cleanedAt key j' = cleanedAt g.key j'')

/-- The segment walk of `ensureParent` preserves the anchoring invariants. -/
theorem ensureParentGo_anchor (u : List String) (key : String) (hwf : wellFormedKey key) :
    ∀ (n j₀ : Nat) (st : ExpSt),
      (segsOf key).length = j₀ + n →
      (∀ p ∈ st.seen, p ∈ u ∨
          (∃ g ∈ st.result, ∃ j', 1 ≤ j' ∧ j' ≤ (segsOf g.key).length ∧
            p = cleanedAt g.key j') ∨
          (∃ j', 1 ≤ j' ∧ j' ≤ j₀ ∧ p = cleanedAt key j')) →
      PrefixAnchored u st.result →
      (∀ j' : Nat, 1 ≤ j' → j' ≤ j₀ → j' < (segsOf key).length →
          cleanedAt key j' ∈ u ∨ cleanedAt key j' ∈ st.result.map (·.key) ∨
          ∃ g ∈ st.result, ∃ j'', 1 ≤ j'' ∧ j'' ≤ (segsOf g.key).length ∧
            cleanedAt key j' = cleanedAt g.key j'') →
      AnchorOut u key st
        (ensureParentGo u ((segsOf key).drop j₀) (cleanedAt key j₀) st) := by
  intro n
  induction n with
  | zero =>
    intro j₀ st hm hQ hA hW
    have hj : j₀ = (segsOf key).length := by omega
    subst hj
    rw [List.drop_length]
    exact ⟨fun g hg => hg, fun g hg => Or.inl hg, hA, hQ,
      fun j' h1 h2 => hW j' h1 (by omega) h2⟩
  | succ k IH =>
    intro j₀ st hm hQ hA hW
    have hj₀ : j₀ < (segsOf key).length := by omega
    have hdrop : (segsOf key).drop j₀ =
        (segsOf key).get ⟨j₀, hj₀⟩ :: (segsOf key).drop (j₀ + 1) := by
      rw [List.get_eq_getElem]; exact List.drop_eq_getElem_cons hj₀
    rw [hdrop, ensureParentGo]
    rw [show (if endsWithBrackets ((segsOf key).get ⟨j₀, hj₀⟩) then
          dropBrackets ((segsOf key).get ⟨j₀, hj₀⟩)
        else (segsOf key).get ⟨j₀, hj₀⟩) = cleanSeg ((segsOf key).get ⟨j₀, hj₀⟩) from rfl,
      ← cleanedAt_succ key j₀ hj₀]
    by_cases h1 : cleanedAt key (j₀ + 1) ∈ u
    · rw [if_pos h1]
      refine IH (j₀ + 1) st (by omega)
        (fun p hp => (hQ p hp).imp id (Or.imp id
          (fun ⟨j', a, b, c⟩ => ⟨j', a, by omega, c⟩))) hA ?_
      intro j' ha hb hc
      rcases Nat.lt_or_ge j' (j₀ + 1) with hd | hd
      · exact hW j' ha (by omega) hc
      · have : j' = j₀ + 1 := by omega
        subst this
        exact Or.inl h1
    · rw [if_neg h1]
      by_cases h2 : cleanedAt key (j₀ + 1) ∈ st.seen
      · rw [if_pos h2]
        refine IH (j₀ + 1) st (by omega)
          (fun p hp => (hQ p hp).imp id (Or.imp id
            (fun ⟨j', a, b, c⟩ => ⟨j', a, by omega, c⟩))) hA ?_
        intro j' ha hb hc
        rcases Nat.lt_or_ge j' (j₀ + 1) with hd | hd
        · exact hW j' ha (by omega) hc
        · have : j' = j₀ + 1 := by omega
          subst this
          rcases hQ _ h2 with hx | ⟨g, hg, j'', a, b, c⟩ | ⟨j'', a, b, c⟩
          · exact Or.inl hx
          · exact Or.inr (Or.inr ⟨g, hg, j'', a, b, c⟩)
          · have := cleanedAt_inj hwf (by omega : 1 ≤ j₀ + 1) (by omega) a (by omega) c
            omega
      · rw [if_neg h2]
        by_cases h3 : ((segsOf key).drop (j₀ + 1)).isEmpty
        · rw [if_pos h3]
          have hlen : j₀ + 1 = (segsOf key).length := by
            have he := List.isEmpty_iff.mp h3
            have hl := congrArg List.length he
            rw [List.length_drop] at hl
            simp only [List.length_nil] at hl
            omega
          refine IH (j₀ + 1) { st with seen := cleanedAt key (j₀ + 1) :: st.seen }
            (by omega) ?_ hA ?_
          · intro p hp
            rcases List.mem_cons.mp hp with hp | hp
            · exact Or.inr (Or.inr ⟨j₀ + 1, by omega, by omega, hp⟩)
            · exact (hQ p hp).imp id (Or.imp id
                (fun ⟨j', a, b, c⟩ => ⟨j', a, by omega, c⟩))
          · intro j' ha hb hc
            exact hW j' ha (by omega) hc
        · rw [if_neg h3]
          have hlt : j₀ + 1 < (segsOf key).length := by
            have hne : (segsOf key).drop (j₀ + 1) ≠ [] := by
              intro hh; rw [hh] at h3; exact h3 rfl
            have hp := List.length_pos.mpr hne
            rw [List.length_drop] at hp
            omega
          have hAkey : (mkAuto (cleanedAt key (j₀ + 1))
              (endsWithBrackets ((segsOf key).get ⟨j₀, hj₀⟩))).key
                = cleanedAt key (j₀ + 1) := rfl
          have hmem : mkAuto (cleanedAt key (j₀ + 1))
              (endsWithBrackets ((segsOf key).get ⟨j₀, hj₀⟩)) ∈
              st.result ++ [mkAuto (cleanedAt key (j₀ + 1))
                (endsWithBrackets ((segsOf key).get ⟨j₀, hj₀⟩))] :=
            List.mem_append_right _ (List.mem_singleton.mpr rfl)
          have hstep := IH (j₀ + 1)
            { seen := cleanedAt key (j₀ + 1) :: st.seen,
              result := st.result ++ [mkAuto (cleanedAt key (j₀ + 1))
                (endsWithBrackets ((segsOf key).get ⟨j₀, hj₀⟩))] }
            (by omega) ?_ ?_ ?_
          · refine ⟨fun g hg => hstep.1 g (List.mem_append_left _ hg), ?_,
              hstep.2.2.1, hstep.2.2.2.1, hstep.2.2.2.2⟩
            intro g hg
            rcases hstep.2.1 g hg with hx | hx
            · rcases List.mem_append.mp hx with hx | hx
              · exact Or.inl hx
              · rcases List.mem_singleton.mp hx with rfl
                exact Or.inr ⟨j₀ + 1, by omega, hlt, hAkey⟩
            · exact Or.inr hx
          · intro p hp
            rcases List.mem_cons.mp hp with hp | hp
            · exact Or.inr (Or.inr ⟨j₀ + 1, by omega, by omega, hp⟩)
            · rcases hQ p hp with hx | ⟨g, hg, j'', a, b, c⟩ | ⟨j'', a, b, c⟩
              · exact Or.inl hx
              · exact Or.inr (Or.inl ⟨g, List.mem_append_left _ hg, j'', a, b, c⟩)
              · exact Or.inr (Or.inr ⟨j'', a, by omega, c⟩)
          · refine PrefixAnchored_append_one hA ?_
            intro jj hjj hjjl
            rw [hAkey] at hjjl
            have hsg := segsOf_cleanedAt hwf (by omega : 1 ≤ j₀ + 1) (by omega)
            rw [hsg] at hjjl
            simp only [List.length_map, List.length_take] at hjjl
            have hjjb : jj < j₀ + 1 := by omega
            rw [hAkey, cleanedAt_cleanedAt hwf (by omega) (by omega) (by omega)]
            rcases hW jj (by omega) (by omega) (by omega) with hx | hx | ⟨g, hg, j'', a, b, c⟩
            · exact Or.inl hx
            · refine Or.inr (Or.inl ?_)
              rw [List.map_append]
              exact List.mem_append_left _ hx
            · exact Or.inr (Or.inr ⟨g, hg, j'', a, b, c⟩)
          · intro j' ha hb hc
            rcases Nat.lt_or_ge j' (j₀ + 1) with hd | hd
            · rcases hW j' ha (by omega) hc with hx | hx | ⟨g, hg, j'', a, b, c⟩
              · exact Or.inl hx
              · refine Or.inr (Or.inl ?_)
                rw [List.map_append]
                exact List.mem_append_left _ hx
              · exact Or.inr (Or.inr ⟨g, List.mem_append_left _ hg, j'', a, b, c⟩)
            · have : j' = j₀ + 1 := by omega
              subst this
              refine Or.inr (Or.inl ?_)
              exact List.mem_map.mpr ⟨_, hmem, hAkey⟩

/-- `ensureParent` on a fresh key, anchoring version. -/
theorem ensureParent_anchor (u : List String) (key : String) (st : ExpSt)
    (hwf : wellFormedKey key)
    (hQ : ∀ p ∈ st.seen, p ∈ u ∨
        ∃ g ∈ st.result, ∃ j', 1 ≤ j' ∧ j' ≤ (segsOf g.key).length ∧
          p = cleanedAt g.key j')
    (hA : PrefixAnchored u st.result) :
    AnchorOut u key st (ensureParent u key st) :=
  ensureParentGo_anchor u key hwf (segsOf key).length 0 st (by omega)
    (fun p hp => (hQ p hp).imp id Or.inl)
    hA
    (by intro j' ha hb hc; omega)

/-- The expansion fold over wellformed user fields produces a list of truthy,
anchored keys containing every user key. -/
theorem expandFold_anchor (fields : List Field)
    (hw : ∀ f ∈ fields, f.key ≠ "" → wellFormedKey f.key) :
    ∀ (todo : List Field) (k : Nat) (st : ExpSt),
      fields.drop k = todo →
      (∀ p ∈ st.seen, p ∈ userKeysOf fields ∨
          ∃ g ∈ st.result, ∃ j', 1 ≤ j' ∧ j' ≤ (segsOf g.key).length ∧
            p = cleanedAt g.key j') →
      PrefixAnchored (userKeysOf fields) st.result →
      (∀ g ∈ st.result, g.key ≠ "") →
      (∀ i : Fin fields.length, i.val < k → (fields.get i).key ≠ "" →
          ∃ g ∈ st.result, g.key = (fields.get i).key) →
      (∀ g ∈ (todo.foldl (expandStep (userKeysOf fields)) st).result, g.key ≠ "") ∧
      PrefixAnchored (userKeysOf fields)
        (todo.foldl (expandStep (userKeysOf fields)) st).result ∧
      (∀ i : Fin fields.length, (fields.get i).key ≠ "" →
          ∃ g ∈ (todo.foldl (expandStep (userKeysOf fields)) st).result,
            g.key = (fields.get i).key) := by
  intro todo
  induction todo with
  | nil =>
    intro k st hd hQ hA hne hdone
    rw [List.foldl_nil]
    have hk : fields.length ≤ k := by
      by_contra hc
      push_neg at hc
      rw [List.drop_eq_getElem_cons hc] at hd
      exact absurd hd (List.cons_ne_nil _ _)
    exact ⟨hne, hA, fun i hi => hdone i (by omega) hi⟩
  | cons f todo' ih =>
    intro k st hd hQ hA hne hdone
    have hk : k < fields.length := by
      by_contra hc
      push_neg at hc
      rw [List.drop_eq_nil_of_le hc] at hd
      exact absurd hd.symm (List.cons_ne_nil _ _)
    have hd2 : fields.drop k = (fields.get ⟨k, hk⟩) :: fields.drop (k + 1) := by
      rw [List.get_eq_getElem]; exact List.drop_eq_getElem_cons hk
    rw [hd] at hd2
    injection hd2 with hf hl'
    rw [List.foldl_cons, hf]
    by_cases hkey : (fields.get ⟨k, hk⟩).key = ""
    · have hstep : expandStep (userKeysOf fields) st (fields.get ⟨k, hk⟩) = st := by
        rw [expandStep, if_pos hkey]
      rw [hstep]
      refine ih (k + 1) st hl'.symm hQ hA hne ?_
      intro i hi hki
      rcases Nat.lt_or_ge i.val k with hc | hc
      · exact hdone i hc hki
      · have hie : i = ⟨k, hk⟩ := Fin.ext (show i.val = k by omega)
        rw [hie] at hki
        exact absurd hkey hki
    · have hwf := hw _ (List.get_mem fields k hk) hkey
      obtain ⟨hO1, hO2, hO3, hO4, hO5⟩ :=
        ensureParent_anchor (userKeysOf fields) (fields.get ⟨k, hk⟩).key st hwf hQ hA
      obtain ⟨hstep_res, hstep_mono, hstep_seen⟩ :=
        expandStep_parts (userKeysOf fields) st (fields.get ⟨k, hk⟩) hkey
      have hfmem : fields.get ⟨k, hk⟩ ∈
          (ensureParent (userKeysOf fields) (fields.get ⟨k, hk⟩).key st).result
            ++ [fields.get ⟨k, hk⟩] :=
        List.mem_append_right _ (List.mem_singleton.mpr rfl)
      have hfuk : (fields.get ⟨k, hk⟩).key ∈ userKeysOf fields :=
        List.mem_map.mpr ⟨fields.get ⟨k, hk⟩,
          List.mem_filter.mpr ⟨List.get_mem fields k hk, decide_eq_true hkey⟩, rfl⟩
      refine ih (k + 1) _ hl'.symm ?_ ?_ ?_ ?_
      · -- seen after the step
        intro p hp
        rcases hstep_seen p hp with hp | hp
        · exact Or.inl (by rw [hp]; exact hfuk)
        · rcases hO4 p hp with hx | ⟨g, hg, j', a, b, c⟩ | ⟨j', a, b, c⟩
          · exact Or.inl hx
          · exact Or.inr ⟨g, by rw [hstep_res]; exact List.mem_append_left _ hg,
              j', a, b, c⟩
          · exact Or.inr ⟨fields.get ⟨k, hk⟩, by rw [hstep_res]; exact hfmem,
              j', a, b, c⟩
      · -- anchoring after the step
        rw [hstep_res]
        refine PrefixAnchored_append_one hO3 ?_
        intro j hj hjl
        rcases hO5 j hj hjl with hx | hx | ⟨g, hg, j'', a, b, c⟩
        · exact Or.inl hx
        · refine Or.inr (Or.inl ?_)
          rw [List.map_append]
          exact List.mem_append_left _ hx
        · exact Or.inr (Or.inr ⟨g, hg, j'', a, b, c⟩)
      · -- all keys truthy after the step
        intro g hg
        rw [hstep_res] at hg
        rcases List.mem_append.mp hg with hg | hg
        · rcases hO2 g hg with hx | ⟨jj, a, b, c⟩
          · exact hne g hx
          · rw [c]
            exact cleanedAt_ne_empty hwf a (by omega)
        · rcases List.mem_singleton.mp hg with rfl
          exact hkey
      · -- every processed user key present
        intro i hi hki
        rcases Nat.lt_or_ge i.val k with hc | hc
        · obtain ⟨g, hg, hgk⟩ := hdone i hc hki
          exact ⟨g, by rw [hstep_res]; exact List.mem_append_left _ (hO1 g hg), hgk⟩
        · have hie : i = ⟨k, hk⟩ := Fin.ext (show i.val = k by omega)
          rw [hie]
          exact ⟨fields.get ⟨k, hk⟩, by rw [hstep_res]; exact hfmem, rfl⟩

/-- The expansion of a wellformed field list has truthy keys, is anchored
relative to the user keys, and contains every user key. -/
theorem expand_anchored (fields : List Field)
    (hw : ∀ f ∈ fields, f.key ≠ "" → wellFormedKey f.key) :
    (∀ g ∈ expandFieldListWithParents fields, g.key ≠ "") ∧
    PrefixAnchored (userKeysOf fields) (expandFieldListWithParents fields) ∧
    (∀ p ∈ userKeysOf fields, p ∈ (expandFieldListWithParents fields).map (·.key)) := by
  obtain ⟨hne, hanch, hdone⟩ := expandFold_anchor fields hw fields 0 ⟨[], []⟩ rfl
    (by intro p hp; exact absurd hp (List.not_mem_nil p))
    (by intro i hi; exact absurd hi (by simp))
    (by intro g hg; exact absurd hg (List.not_mem_nil g))
    (by intro i hi; exact absurd hi (by omega))
  refine ⟨hne, hanch, ?_⟩
  intro p hp
  obtain ⟨f', hf', rfl⟩ := List.mem_map.mp hp
  have hf'mem : f' ∈ fields := List.mem_of_mem_filter hf'
  have hf'ne : f'.key ≠ "" := of_decide_eq_true (List.mem_filter.mp hf').2
  obtain ⟨i, hig⟩ := List.mem_iff_get.mp hf'mem
  obtain ⟨g, hg, hgk⟩ := hdone i (by rw [hig]; exact hf'ne)
  exact List.mem_map.mpr ⟨g, hg, by rw [hgk, hig]⟩

/-- **C5** (corrected).  For every field list whose non-empty keys are
wellformed (the leading segment cleans to a non-empty name — in particular no
leading dot — and no segment carries a doubled `[]` suffix),
`expandFieldListWithParents` is idempotent: re-expanding the expanded list
reproduces it exactly, so repeated expansion introduces no duplicate ancestor
entries. -/
theorem C5_expand_idempotent (fields : List Field)
    (hw : ∀ f ∈ fields, f.key ≠ "" → wellFormedKey f.key) :
    expandFieldListWithParents (expandFieldListWithParents fields)
      = expandFieldListWithParents fields := by
  obtain ⟨hne, hanch, hsub⟩ := expand_anchored fields hw
  exact expandFold_nopush (expandFieldListWithParents fields) (userKeysOf fields)
    hne hsub hanch (expandFieldListWithParents fields) 0 ⟨[], []⟩ rfl rfl
    (by intro i hi hik; exact absurd hik (by omega))

/-- Witness for C5 at the concrete wellformed input `[{key:"a.b[].c"}]`. -/
theorem C5_witness :
    (∀ f ∈ [keyField "a.b[].c"], f.key ≠ "" → wellFormedKey f.key) ∧
    expandFieldListWithParents (expandFieldListWithParents [keyField "a.b[].c"])
      = expandFieldListWithParents [keyField "a.b[].c"] :=
  ⟨by decide, C5_expand_idempotent [keyField "a.b[].c"] (by decide)⟩

end Apipost
